import Mathlib

/-!
# A cooperative coroutine runtime (`co.c`): embedding and verification

The runtime keeps every coroutine descriptor (`struct co`) on a circular singly
linked list and a global pointer `current` to the descriptor that is executing.

Embedding conventions.

* Pointers are natural numbers, `NULL` is `0`; the memory is a total map from
  addresses to descriptors, so a block handed out by `malloc` carries whatever
  the memory held there before (`malloc` does not clear it).
* The loops of the source (the predecessor walks of `co_start` and `co_wait`,
  the scan of `co_yield`) take a fuel argument that bounds the number of loop
  tests; `none` means that the fuel ran out or that an `assert` of the source
  failed.
* `setjmp`/`longjmp` and `stack_switch_call` are modelled by continuations:
  the `jmp_buf` of a descriptor holds what its coroutine does once `co_yield`
  returns there, and launching an entry function makes its body the running
  code.  Host code (the bodies of `main` and of the entry functions) is a
  small tree of calls into the library.
* The stack pointer is not part of the state.  After an entry function returns,
  lines 14-15 restore the `rsp` of the `co_yield` call that started it, and
  lines 120-127 run there; the embedding gives what these lines do when the
  stack below that `rsp` is not in use by a live frame.
* The allocator hands out a fresh address at each call; a block that was in
  use before is a block of the initial memory that holds stale fields.
-/

namespace Co

/-- A pointer to a descriptor. -/
abbrev Addr := Nat

/-- The null pointer. -/
def NULL : Addr := 0

/-- The source's `enum co_status`. -/
inductive co_status where
  | CO_NEW
  | CO_RUNNING
  | CO_WAITING
  | CO_DEAD
  deriving DecidableEq, Repr

open co_status

/-- Host code: what `main` or an entry function does, as the sequence of its
calls into the library.  `ret` is the return of the function; `emit` is an
observable output of the host; `self` reads the global `current`. -/
inductive Prog where
  | ret : Prog
  | emit (token : Nat) (k : Prog) : Prog
  | yield (k : Prog) : Prog
  | start (name : String) (func : Nat → Prog) (arg : Nat) (k : Addr → Prog) : Prog
  | wait (co : Addr) (k : Prog) : Prog
  | self (k : Addr → Prog) : Prog

/-- An execution point, as captured by `setjmp(current->context)` at line 103:
the place `co_yield` returns to.  `host k`: `co_yield` was called by host code
that goes on with `k`; `in_wait co k`: it was called by the loop of
`co_wait(co)` (line 85), the caller of `co_wait` going on with `k`;
`rescheduling`: it was called at line 126, after an entry function returned. -/
inductive Cont where
  | host (k : Prog) : Cont
  | in_wait (co : Addr) (k : Prog) : Cont
  | rescheduling : Cont

/-- The source's `struct co` (the stack is represented by the continuation
saved in `context`). -/
structure co where
  next : Addr
  func : Nat → Prog
  arg : Nat
  status : co_status
  waiter : Addr
  name : String
  context : Cont

/-- The memory: every address holds some descriptor contents. -/
abbrev Mem := Addr → co

/-- Write to the descriptor at address `a`. -/
def Mem.modify (m : Mem) (a : Addr) (f : co → co) : Mem :=
  fun x => if x = a then f (m x) else m x

/-- Observable events of a run. -/
inductive Event where
  | select (a : Addr)
  | enter (a : Addr)
  | dead (a : Addr)
  | token (n : Nat)
  | wait_return (a : Addr) (target : Addr)
  deriving DecidableEq, Repr

/-- The state of the process: the memory, the global `current`, the code being
executed (`pc`), the descriptor of `main`, the allocator's next fresh address,
the blocks released by `free`, and the events so far. -/
structure State where
  mem : Mem
  current : Addr
  pc : Cont
  root : Addr
  brk : Addr
  freed : List Addr
  trace : List Event

/-- A status at which the scan of `co_yield` goes on (line 112). -/
def skipped (st : co_status) : Bool :=
  st == CO_DEAD || st == CO_WAITING

/-- The `do ... while` loop of `co_yield` (lines 109-112), started with
`co_next = p`; one unit of fuel per execution of the loop body. -/
def scan (m : Mem) : Nat → Addr → Option Addr
  | 0, _ => none
  | fuel + 1, p =>
    let co_next := (m p).next
    if skipped (m co_next).status then scan m fuel co_next else some co_next

/-- The loop `while (h->next != target) { h = h->next; assert(h != NULL); }` of
`co_start` (lines 68-71, `target = current`) and of `co_wait` (lines 91-94,
`target = co`); one unit of fuel per loop test. -/
def find_prev (m : Mem) (target : Addr) : Nat → Addr → Option Addr
  | 0, _ => none
  | fuel + 1, h =>
    if (m h).next = target then some h
    else if (m h).next = NULL then none
    else find_prev m target fuel (m h).next

/-- The source's `co_start` (lines 53-76); `start` is the block returned by
`malloc`.  Returns the new state (the handle returned is `start`). -/
def co_start (fuel : Nat) (s : State) (start : Addr) (name : String)
    (func : Nat → Prog) (arg : Nat) : Option State :=
  if s.current = NULL then none
  else if start = NULL then none
  else
    let m1 := s.mem.modify start
      (fun d => { d with arg := arg, func := func, status := CO_NEW, name := name })
    match find_prev m1 s.current fuel s.current with
    | none => none
    | some h =>
      let m2 := m1.modify h (fun d => { d with next := start })
      let m3 := m2.modify start (fun d => { d with next := s.current })
      some { s with mem := m3 }

/-- The source's `co_yield` (lines 100-130) up to the transfer of control: `k`
is the execution point saved by `setjmp`; the result runs either the entry
function of a `CO_NEW` descriptor or the saved context of the selected one. -/
def co_yield (fuel : Nat) (s : State) (k : Cont) : Option State :=
  if s.current = NULL then none
  else
    let m1 := s.mem.modify s.current (fun d => { d with context := k })
    match scan m1 fuel s.current with
    | none => none
    | some co_next =>
      if (m1 co_next).status = CO_NEW then
        some { s with
          mem := m1.modify co_next (fun d => { d with status := CO_RUNNING })
          current := co_next
          pc := Cont.host ((m1 co_next).func (m1 co_next).arg)
          trace := s.trace ++ [Event.select co_next, Event.enter co_next] }
      else
        some { s with
          mem := m1
          current := co_next
          pc := (m1 co_next).context
          trace := s.trace ++ [Event.select co_next] }

/-- Lines 120-127 of `co_yield`: the entry function of `current` has returned
from `stack_switch_call`.  The stack on which these lines run (the one of the
`co_yield` call that started the coroutine) is not modelled. -/
def entry_return (fuel : Nat) (s : State) : Option State :=
  let m1 := s.mem.modify s.current (fun d => { d with status := CO_DEAD })
  let s1 := { s with mem := m1, trace := s.trace ++ [Event.dead s.current] }
  if (m1 s.current).waiter ≠ NULL then
    let w := (m1 s.current).waiter
    some { s1 with current := w, pc := (m1 w).context }
  else co_yield fuel s1 Cont.rescheduling

/-- Lines 87-96 of `co_wait`: the loop has seen `co->status == CO_DEAD`. -/
def co_wait_exit (fuel : Nat) (s : State) (co : Addr) (k : Prog) : Option State :=
  let m1 := s.mem.modify s.current (fun d => { d with status := CO_RUNNING })
  match find_prev m1 co fuel s.current with
  | none => none
  | some h =>
    let m2 := m1.modify h (fun d => { d with next := (m1 (m1 h).next).next })
    some { s with
      mem := m2
      pc := Cont.host k
      freed := s.freed ++ [co]
      trace := s.trace ++ [Event.wait_return s.current co] }

/-- Lines 84-96 of `co_wait`, from the loop test: either one more `co_yield`,
which returns to the loop test, or the exit of the loop. -/
def co_wait_loop (fuel : Nat) (s : State) (co : Addr) (k : Prog) : Option State :=
  if (s.mem co).status ≠ CO_DEAD then co_yield fuel s (Cont.in_wait co k)
  else co_wait_exit fuel s co k

/-- Lines 82-83 of `co_wait`: the caller becomes `CO_WAITING` and registers as
the waiter of `co`. -/
def co_wait_mark (s : State) (co : Addr) : State :=
  let m1 := s.mem.modify s.current (fun d => { d with status := CO_WAITING })
  let m2 := m1.modify co (fun d => { d with waiter := s.current })
  { s with mem := m2 }

/-- The source's `co_wait` (lines 79-97), up to its first transfer of control or
its return; `k` is what the caller does after the call. -/
def co_wait (fuel : Nat) (s : State) (co : Addr) (k : Prog) : Option State :=
  if s.current = NULL then none
  else co_wait_loop fuel (co_wait_mark s co) co k

/-- The source's `co_constructor` (lines 138-151); `p` is the block returned by
`malloc`. -/
def co_constructor (s : State) (p : Addr) : Option State :=
  if s.current ≠ NULL then none
  else if p = NULL then none
  else
    some { s with
      mem := s.mem.modify p
        (fun d => { d with status := CO_RUNNING, waiter := NULL, name := "main", next := p })
      current := p
      root := p }

/-- The allocator: hands out the next fresh address, with the fields that the
memory holds there (a block freed by `co_wait` is not handed out again). -/
def malloc (s : State) : Addr × State :=
  (s.brk, { s with brk := s.brk + 1 })

/-- One step of the process: the running code performs its next call. -/
def step (fuel : Nat) (s : State) : Option State :=
  match s.pc with
  | Cont.host Prog.ret =>
    if s.current = s.root then none else entry_return fuel s
  | Cont.host (Prog.emit t k) =>
    some { s with pc := Cont.host k, trace := s.trace ++ [Event.token t] }
  | Cont.host (Prog.yield k) => co_yield fuel s (Cont.host k)
  | Cont.host (Prog.start name func arg k) =>
    match co_start fuel (malloc s).2 (malloc s).1 name func arg with
    | none => none
    | some s1 => some { s1 with pc := Cont.host (k (malloc s).1) }
  | Cont.host (Prog.wait co k) => co_wait fuel s co k
  | Cont.host (Prog.self k) => some { s with pc := Cont.host (k s.current) }
  | Cont.in_wait co k => co_wait_loop fuel s co k
  | Cont.rescheduling => none

/-- Exactly `n` steps. -/
def exec (fuel : Nat) : Nat → State → Option State
  | 0, s => some s
  | n + 1, s => (step fuel s).bind (exec fuel n)

/-- The process before `co_constructor` runs: `current` is `NULL`, the memory
holds `junk`, and `main` is about to run `prog`. -/
def boot (junk : Mem) (prog : Prog) : State :=
  { mem := junk, current := NULL, pc := Cont.host prog, root := NULL, brk := 1,
    freed := [], trace := [] }

/-- The process at the start of `main`: `co_constructor` has run. -/
def init (junk : Mem) (prog : Prog) : Option State :=
  co_constructor (malloc (boot junk prog)).2 (malloc (boot junk prog)).1

/-- Memory filled with zero bytes, apart from the status (zero is no value of
`co_status`; no descriptor of a ring is read before its status is written). -/
def zeroed : Mem :=
  fun _ => { next := NULL, func := fun _ => Prog.ret, arg := 0, status := CO_DEAD,
             waiter := NULL, name := "", context := Cont.rescheduling }

/-- Memory that was in use before: every block still holds the pointer `1` in
its `waiter` field. -/
def recycled : Mem :=
  fun _ => { next := NULL, func := fun _ => Prog.ret, arg := 0, status := CO_DEAD,
             waiter := 1, name := "", context := Cont.rescheduling }

/-- Each descriptor of the list has the following one as its `next`. -/
def linked (m : Mem) : List Addr → Prop
  | [] => True
  | [_] => True
  | a :: b :: l => (m a).next = b ∧ linked m (b :: l)

/-- The descriptors `cur :: rest` form a ring through `cur`: following `next`
from `cur` visits `rest` in order and comes back to `cur`; they are distinct
and none is `NULL`. -/
def ring (m : Mem) (cur : Addr) (rest : List Addr) : Prop :=
  linked m (cur :: rest ++ [cur]) ∧ (cur :: rest).Nodup ∧ NULL ∉ cur :: rest

/-- The status is `CO_NEW` or `CO_RUNNING`. -/
def eligible (st : co_status) : Bool :=
  st == CO_NEW || st == CO_RUNNING

/-- The first `n` selections made by the scan of `co_yield` when it is started
at `p` and then restarted at each descriptor it selects, the memory staying as
it is. -/
def selections (m : Mem) (fuel : Nat) : Nat → Addr → Option (List Addr)
  | 0, _ => some []
  | n + 1, p =>
    match scan m fuel p with
    | none => none
    | some q => (selections m fuel n q).map (fun l => q :: l)

/-- The descriptor reached from `a` by `n` `next`-links. -/
def follow (m : Mem) : Nat → Addr → Addr
  | 0, a => a
  | n + 1, a => follow m n (m a).next

/-- The state of the process run from a zeroed memory: `main` is `prog`, and
`n` steps are taken after `co_constructor` (the state before `co_constructor`
if the run does not get that far). -/
def stateAt (fuel n : Nat) (prog : Prog) : State :=
  ((init zeroed prog).bind (exec fuel n)).getD (boot zeroed prog)

/-- The descriptors selected at line 113, in order. -/
def selected : List Event → List Addr
  | [] => []
  | Event.select a :: l => a :: selected l
  | _ :: l => selected l

/-- The tokens emitted by the host, in order. -/
def tokens : List Event → List Nat
  | [] => []
  | Event.token t :: l => t :: tokens l
  | _ :: l => tokens l

/-- The events other than selections, in order. -/
def milestones : List Event → List Event
  | [] => []
  | Event.select _ :: l => milestones l
  | e :: l => e :: milestones l

/-- An entry function that emits the token `t`, yields once and returns. -/
def token_entry (t : Nat) : Nat → Prog :=
  fun _ => Prog.emit t (Prog.yield Prog.ret)

/-- The host of the concrete trace: `main` creates A and B, then yields three
times. -/
def trace_main : Prog :=
  Prog.start "A" (token_entry 10) 0 fun _ =>
  Prog.start "B" (token_entry 20) 0 fun _ =>
  Prog.yield (Prog.yield (Prog.yield Prog.ret))

/-- The host of the transitive wait: `main` creates A and waits for it; A
creates B, waits for it and returns; B returns. -/
def transitive_main : Prog :=
  Prog.start "A"
    (fun _ => Prog.start "B" (fun _ => Prog.ret) 0 fun b => Prog.wait b Prog.ret) 0
    fun a => Prog.wait a Prog.ret

/-- The host of the deadlock: `main` waits for A, A creates B and waits for it,
B waits for A. -/
def deadlock_main : Prog :=
  Prog.start "A"
    (fun _ => Prog.self fun a =>
      Prog.start "B" (fun _ => Prog.wait a Prog.ret) 0 fun b => Prog.wait b Prog.ret) 0
    fun a => Prog.wait a Prog.ret


/-- The loop of `co_destructor` (lines 164-168), entered with `current = cur`:
the blocks it frees, in order; one unit of fuel per loop test. -/
def release_all (m : Mem) : Nat → Addr → Option (List Addr)
  | 0, _ => none
  | fuel + 1, cur =>
    if cur = NULL then some []
    else (release_all m fuel (m cur).next).map (fun l => cur :: l)

/-- The source's `co_destructor` (lines 154-169). -/
def co_destructor (fuel : Nat) (s : State) : Option State :=
  if s.current = NULL then some s
  else if s.current = (s.mem s.current).next then
    some { s with freed := s.freed ++ [s.current] }
  else
    let it := (s.mem s.current).next
    let m1 := s.mem.modify s.current (fun d => { d with next := NULL })
    match release_all m1 fuel it with
    | none => none
    | some l => some { s with mem := m1, current := NULL, freed := s.freed ++ l }

/-- The execution point of the descriptor `a`: the running code `k` for
current, the saved context for the others. -/
def point (m : Mem) (cur : Addr) (k : Cont) (a : Addr) : Cont :=
  if a = cur then k else (m a).context

/-- The invariant of the runtime, for a memory `m`, the globals `cur`, `root`
and `brk`, and the execution point `k` of current.  The descriptors
`cur :: rest` form a ring that holds the root; the root is not Dead; the ring
lies in the allocated blocks, and the blocks not yet allocated hold no waiter;
a Running descriptor is at a point of host code and a Waiting one inside the
loop of `co_wait`; and the waiter of a descriptor that is not Dead is a Waiting
descriptor of the ring, inside the loop of its `co_wait` for that
descriptor. -/
def coreinv (m : Mem) (cur root brk : Addr) (k : Cont) (rest : List Addr) : Prop :=
  ring m cur rest ∧ root ∈ cur :: rest ∧ (m root).status ≠ CO_DEAD ∧
  (∀ a ∈ cur :: rest, a < brk) ∧
  (∀ a, brk ≤ a ∨ a = NULL → (m a).waiter = NULL ∧ (m a).status = CO_DEAD) ∧
  (∀ a ∈ cur :: rest,
    ((m a).status = CO_RUNNING → ∃ p, point m cur k a = Cont.host p) ∧
    ((m a).status = CO_WAITING → ∃ co kk, point m cur k a = Cont.in_wait co kk)) ∧
  (∀ x ∈ cur :: rest, (m x).status ≠ CO_DEAD → (m x).waiter ≠ NULL →
    (m x).waiter ∈ cur :: rest ∧ (m (m x).waiter).status = CO_WAITING ∧
    ∃ kk, point m cur k (m x).waiter = Cont.in_wait x kk)

/-- The invariant of the process: the invariant of the runtime at the running
code, with current Running or Waiting. -/
def consistent (s : State) : Prop :=
  ∃ rest, coreinv s.mem s.current s.root s.brk s.pc rest ∧
    ((s.mem s.current).status = CO_RUNNING ∨ (s.mem s.current).status = CO_WAITING)

/-- Memory that was in use before: every block still holds in its `waiter`
field the pointer `7`, left there by an earlier use of the block. -/
def dangling : Mem :=
  fun _ => { next := NULL, func := fun _ => Prog.ret, arg := 0, status := CO_DEAD,
             waiter := 7, name := "", context := Cont.rescheduling }

/-- The host of the shortest run in which an entry function returns: `main`
creates A, whose entry returns at once, and yields. -/
def one_shot_main : Prog :=
  Prog.start "A" (fun _ => Prog.ret) 0 fun _ => Prog.yield Prog.ret

/-- Memory that was in use before: every block still holds in its `waiter`
field the pointer `3`, and in its `context` a point saved by a `co_yield` that
was the last call of an entry function before its return. -/
def stale : Mem :=
  fun _ => { next := NULL, func := fun _ => Prog.ret, arg := 0, status := CO_DEAD,
             waiter := 3, name := "", context := Cont.host Prog.ret }

/-- The host that creates two coroutines and yields once: the entry functions
of A and B return at once. -/
def pair_main : Prog :=
  Prog.start "A" (fun _ => Prog.ret) 0 fun _ =>
  Prog.start "B" (fun _ => Prog.ret) 0 fun _ => Prog.yield Prog.ret

theorem modify_other (m : Mem) (a x : Addr) (f : co → co) (h : x ≠ a) :
    (m.modify a f) x = m x := by
  simp [Mem.modify, h]

theorem eligible_iff_not_skipped (st : co_status) : eligible st = !skipped st := by
  cases st <;> rfl

theorem skipped_iff (st : co_status) : skipped st = true ↔ st = CO_DEAD ∨ st = CO_WAITING := by
  cases st <;> simp [skipped]

theorem eligible_iff (st : co_status) : eligible st = true ↔ st = CO_NEW ∨ st = CO_RUNNING := by
  cases st <;> simp [eligible]

theorem linked_cons_cons (m : Mem) (a b : Addr) (l : List Addr) :
    linked m (a :: b :: l) ↔ (m a).next = b ∧ linked m (b :: l) := Iff.rfl

theorem linked_tail (m : Mem) (a : Addr) (l : List Addr) (h : linked m (a :: l)) :
    linked m l := by
  cases l with
  | nil => trivial
  | cons b t => exact h.2

theorem linked_split (m : Mem) (b : Addr) (l2 : List Addr) :
    ∀ l1 : List Addr, linked m (l1 ++ b :: l2) ↔ linked m (l1 ++ [b]) ∧ linked m (b :: l2)
  | [] => by simp [linked]
  | [a] => by simp [linked]
  | a :: c :: l => by
    have ih := linked_split m b l2 (c :: l)
    simp only [List.cons_append, linked_cons_cons] at ih ⊢
    rw [ih, and_assoc]

theorem linked_congr (m m' : Mem) (z : Addr) :
    ∀ l : List Addr, (∀ x ∈ l, (m' x).next = (m x).next) →
      linked m (l ++ [z]) → linked m' (l ++ [z])
  | [], _, _ => trivial
  | [a], h, hl => by
    simp only [List.singleton_append, linked_cons_cons] at hl ⊢
    exact ⟨by rw [h a (by simp)]; exact hl.1, trivial⟩
  | a :: c :: l, h, hl => by
    simp only [List.cons_append, linked_cons_cons] at hl ⊢
    refine ⟨by rw [h a (by simp)]; exact hl.1, ?_⟩
    exact linked_congr m m' z (c :: l) (fun x hx => h x (List.mem_cons_of_mem _ hx)) hl.2

/-- Every descriptor of a ring has its `next` in the ring. -/
theorem linked_next_mem (m : Mem) (z : Addr) :
    ∀ l : List Addr, linked m (l ++ [z]) → ∀ x ∈ l, (m x).next ∈ l.tail ++ [z]
  | [], _, x, hx => by simp at hx
  | [a], hl, x, hx => by
    simp only [List.singleton_append, linked_cons_cons] at hl
    simp only [List.mem_singleton] at hx
    subst hx
    simp [hl.1]
  | a :: c :: l, hl, x, hx => by
    simp only [List.cons_append, linked_cons_cons] at hl
    rcases List.mem_cons.1 hx with rfl | hx
    · simp [hl.1]
    · have := linked_next_mem m z (c :: l) hl.2 x hx
      simp only [List.tail_cons, List.cons_append, List.mem_cons, List.mem_append,
        List.mem_singleton] at this ⊢
      rcases List.mem_cons.1 hx with rfl | hx'
      · right; exact this
      · right; exact this

theorem ring_next_mem {m : Mem} {cur : Addr} {rest : List Addr} (h : ring m cur rest) :
    ∀ x ∈ cur :: rest, (m x).next ∈ cur :: rest := by
  intro x hx
  have := linked_next_mem m cur (cur :: rest) (by simpa using h.1) x hx
  simp only [List.tail_cons, List.mem_append, List.mem_singleton] at this
  rcases this with h1 | h1
  · exact List.mem_cons_of_mem _ h1
  · rw [h1]; exact List.mem_cons_self _ _

theorem ring_follow_mem {m : Mem} {cur : Addr} {rest : List Addr} (h : ring m cur rest) :
    ∀ (n : Nat) (x : Addr), x ∈ cur :: rest → follow m n x ∈ cur :: rest
  | 0, _, hx => hx
  | n + 1, x, hx => ring_follow_mem h n _ (ring_next_mem h x hx)

/-- The first element of a list that satisfies `p`, with what precedes it. -/
theorem exists_first (p : Addr → Bool) :
    ∀ l : List Addr, (∃ x ∈ l, p x = true) →
      ∃ pre e post, l = pre ++ e :: post ∧ (∀ x ∈ pre, p x = false) ∧ p e = true
  | [], h => by simp at h
  | a :: l, h => by
    by_cases ha : p a = true
    · exact ⟨[], a, l, rfl, by simp, ha⟩
    · have hl : ∃ x ∈ l, p x = true := by
        obtain ⟨x, hx, hpx⟩ := h
        rcases List.mem_cons.1 hx with rfl | hx
        · exact absurd hpx ha
        · exact ⟨x, hx, hpx⟩
      obtain ⟨pre, e, post, rfl, hpre, he⟩ := exists_first p l hl
      refine ⟨a :: pre, e, post, rfl, ?_, he⟩
      intro x hx
      rcases List.mem_cons.1 hx with rfl | hx
      · simpa using ha
      · exact hpre x hx

/-! ## The scan of `co_yield` -/

theorem scan_congr (m m' : Mem)
    (h : ∀ x, (m' x).next = (m x).next ∧ (m' x).status = (m x).status) :
    ∀ (fuel : Nat) (p : Addr), scan m' fuel p = scan m fuel p
  | 0, _ => rfl
  | fuel + 1, p => by
    simp only [scan, (h p).1, (h _).2, scan_congr m m' h fuel]

/-- The scan started at `a` passes the skipped descriptors `pre` and stops at
the first descriptor `sel` that is not skipped. -/
theorem scan_linked (m : Mem) (sel : Addr) (hsel : skipped (m sel).status = false) :
    ∀ (pre : List Addr) (a : Addr) (fuel : Nat), linked m (a :: pre ++ [sel]) →
      (∀ x ∈ pre, skipped (m x).status = true) → pre.length < fuel →
      scan m fuel a = some sel
  | [], a, fuel + 1, hl, _, _ => by
    simp only [List.cons_append, List.nil_append, linked_cons_cons] at hl
    simp [scan, hl.1, hsel]
  | b :: pre, a, fuel + 1, hl, hpre, hf => by
    simp only [List.cons_append, linked_cons_cons] at hl
    have hb : skipped (m b).status = true := hpre b (by simp)
    have ih := scan_linked m sel hsel pre b fuel (by simpa using hl.2)
      (fun x hx => hpre x (List.mem_cons_of_mem _ hx)) (by simpa using hf)
    simp [scan, hl.1, hb, ih]

/-- Inside a set of skipped descriptors closed under `next`, the scan never
stops. -/
theorem scan_none_of_closed (m : Mem) (S : List Addr)
    (hS : ∀ x ∈ S, (m x).next ∈ S ∧ skipped (m x).status = true) :
    ∀ (fuel : Nat) (p : Addr), p ∈ S → scan m fuel p = none
  | 0, _, _ => rfl
  | fuel + 1, p, hp => by
    have h1 := (hS p hp).1
    have h2 := (hS _ h1).2
    simp [scan, h2, scan_none_of_closed m S hS fuel _ h1]

/-- What the scan selects is reached by `next`-links and is not skipped. -/
theorem scan_some_not_skipped (m : Mem) :
    ∀ (fuel : Nat) (p q : Addr), scan m fuel p = some q →
      skipped (m q).status = false ∧ ∃ n, q = follow m (n + 1) p
  | 0, _, _, h => by simp [scan] at h
  | fuel + 1, p, q, h => by
    simp only [scan] at h
    by_cases hs : skipped (m (m p).next).status = true
    · rw [if_pos hs] at h
      obtain ⟨h1, n, h2⟩ := scan_some_not_skipped m fuel _ q h
      exact ⟨h1, n + 1, h2⟩
    · rw [if_neg hs] at h
      cases h
      exact ⟨by simpa using hs, 0, rfl⟩


theorem selections_linked (m : Mem) (fuel : Nat) :
    ∀ (n : Nat) (l : List Addr) (a : Addr), l.length = n → linked m (a :: l) →
      (l = [] ∨ ∃ l0 z, l = l0 ++ [z] ∧ eligible (m z).status = true) →
      l.length ≤ fuel →
      selections m fuel (l.filter fun x => eligible (m x).status).length a
        = some (l.filter fun x => eligible (m x).status) := by
  intro n
  induction n using Nat.strong_induction_on with
  | _ n ih =>
    intro l a hn hl hlast hf
    rcases hlast with rfl | ⟨l0, z, rfl, hz⟩
    · simp [selections]
    · have hex : ∃ x ∈ l0 ++ [z], (fun x => eligible (m x).status) x = true :=
        ⟨z, by simp, hz⟩
      obtain ⟨pre, e, post, hsplit, hpre, he⟩ := exists_first _ _ hex
      have hlen : (l0 ++ [z]).length = pre.length + 1 + post.length := by
        rw [hsplit]; simp; omega
      have hpost : post = [] ∨ ∃ p0 z', post = p0 ++ [z'] ∧ eligible (m z').status = true := by
        rcases List.eq_nil_or_concat post with h | ⟨p0, z', h⟩
        · exact Or.inl h
        · right
          rw [List.concat_eq_append] at h
          refine ⟨p0, z', h, ?_⟩
          have h2 : (pre ++ e :: p0) ++ [z'] = l0 ++ [z] := by
            rw [hsplit, h]; simp
          have h3 := List.append_inj_right' h2 rfl
          simp only [List.cons.injEq, and_true] at h3
          rw [h3]; exact hz
      rw [hsplit] at hl
      have hl' : linked m (a :: pre ++ [e]) ∧ linked m (e :: post) := by
        have := (linked_split m e post (a :: pre)).1 (by simpa using hl)
        simpa using this
      have hscan : scan m fuel a = some e := by
        apply scan_linked m e _ pre a fuel hl'.1
        · intro x hx
          have := hpre x hx
          rw [eligible_iff_not_skipped] at this
          simpa using this
        · omega
        · rw [eligible_iff_not_skipped] at he
          simpa using he
      have hfil : (l0 ++ [z]).filter (fun x => eligible (m x).status)
          = e :: post.filter (fun x => eligible (m x).status) := by
        have : pre.filter (fun x => eligible (m x).status) = [] := by
          rw [List.filter_eq_nil_iff]
          intro x hx
          simp [hpre x hx]
        rw [hsplit, List.filter_append, this]
        simp [List.filter_cons, he]
      have ih' := ih post.length (by omega) post e rfl hl'.2 hpost (by omega)
      rw [hfil]
      simp only [List.length_cons, selections, hscan, ih', Option.map_some']

/-- `co_yield` when the scan selects a `CO_NEW` descriptor: lines 113-119. -/
theorem co_yield_new (fuel : Nat) (s : State) (k : Cont) (q : Addr)
    (hcur : s.current ≠ NULL)
    (hscan : scan (s.mem.modify s.current (fun d => { d with context := k })) fuel s.current
      = some q)
    (hnew : ((s.mem.modify s.current (fun d => { d with context := k })) q).status = CO_NEW) :
    co_yield fuel s k = some { s with
      mem := (s.mem.modify s.current (fun d => { d with context := k })).modify q
        (fun d => { d with status := CO_RUNNING })
      current := q
      pc := Cont.host (((s.mem.modify s.current (fun d => { d with context := k })) q).func
        ((s.mem.modify s.current (fun d => { d with context := k })) q).arg)
      trace := s.trace ++ [Event.select q, Event.enter q] } := by
  simp only [co_yield, if_neg hcur, hscan, if_pos hnew]

/-- `co_yield` when the scan selects a descriptor that is not `CO_NEW`: lines
113 and 129. -/
theorem co_yield_resume (fuel : Nat) (s : State) (k : Cont) (q : Addr)
    (hcur : s.current ≠ NULL)
    (hscan : scan (s.mem.modify s.current (fun d => { d with context := k })) fuel s.current
      = some q)
    (hnew : ((s.mem.modify s.current (fun d => { d with context := k })) q).status ≠ CO_NEW) :
    co_yield fuel s k = some { s with
      mem := s.mem.modify s.current (fun d => { d with context := k })
      current := q
      pc := ((s.mem.modify s.current (fun d => { d with context := k })) q).context
      trace := s.trace ++ [Event.select q] } := by
  simp only [co_yield, if_neg hcur, hscan, if_neg hnew]

/-- C1: in a well-formed ring that holds a descriptor whose status is New or
Running, `co_yield` (given fuel beyond the length of the ring) makes current the
first descriptor, walking `next`-links forward from the caller's successor, whose
status is New or Running: every descriptor passed before it is Dead or Waiting,
and the selected descriptor is neither Dead nor Waiting, before and after the
call. -/
theorem co_yield_selects_first_eligible (fuel : Nat) (s : State) (k : Cont)
    (rest : List Addr) (hring : ring s.mem s.current rest)
    (hex : ∃ a ∈ s.current :: rest, eligible (s.mem a).status = true)
    (hfuel : rest.length < fuel) :
    ∃ s' pre sel post,
      co_yield fuel s k = some s' ∧ s'.current = sel ∧
      rest ++ [s.current] = pre ++ sel :: post ∧
      (∀ x ∈ pre, (s.mem x).status = CO_DEAD ∨ (s.mem x).status = CO_WAITING) ∧
      ((s.mem sel).status = CO_NEW ∨ (s.mem sel).status = CO_RUNNING) ∧
      (s'.mem sel).status ≠ CO_DEAD ∧ (s'.mem sel).status ≠ CO_WAITING := by
  have hex' : ∃ x ∈ rest ++ [s.current], (fun x => eligible (s.mem x).status) x = true := by
    obtain ⟨a, ha, he⟩ := hex
    refine ⟨a, ?_, he⟩
    rcases List.mem_cons.1 ha with rfl | ha
    · simp
    · simp [ha]
  obtain ⟨pre, sel, post, hsplit, hpre, hsel⟩ := exists_first _ _ hex'
  have hcur : s.current ≠ NULL := fun h => hring.2.2 (by rw [h]; simp)
  have hlen : (rest ++ [s.current]).length = pre.length + 1 + post.length := by
    rw [hsplit]; simp; omega
  have hl : linked s.mem (s.current :: pre ++ [sel]) := by
    have h1 := hring.1
    rw [List.cons_append, hsplit] at h1
    exact ((linked_split s.mem sel post (s.current :: pre)).1 (by simpa using h1)).1
  have hsel' : skipped (s.mem sel).status = false := by
    have := hsel
    simp only [eligible_iff_not_skipped] at this
    simpa using this
  have hscan : scan (s.mem.modify s.current (fun d => { d with context := k })) fuel s.current
      = some sel := by
    rw [scan_congr s.mem]
    · apply scan_linked s.mem sel hsel' pre _ fuel hl
      · intro x hx
        have := hpre x hx
        simp only [eligible_iff_not_skipped] at this
        simpa using this
      · simp at hlen; omega
    · intro x
      by_cases hx : x = s.current
      · subst hx; simp [Mem.modify]
      · simp [Mem.modify, hx]
  have hst : ((s.mem.modify s.current (fun d => { d with context := k })) sel).status
      = (s.mem sel).status := by
    by_cases hx : sel = s.current
    · rw [hx]; simp [Mem.modify]
    · simp [Mem.modify, hx]
  have helig := (eligible_iff _).1 hsel
  have hpre' : ∀ x ∈ pre, (s.mem x).status = CO_DEAD ∨ (s.mem x).status = CO_WAITING := by
    intro x hx
    have := hpre x hx
    simp only [eligible_iff_not_skipped] at this
    exact (skipped_iff _).1 (by simpa using this)
  by_cases hnew : (s.mem sel).status = CO_NEW
  · refine ⟨_, pre, sel, post, co_yield_new fuel s k sel hcur hscan (by rw [hst]; exact hnew),
      rfl, hsplit, hpre', helig, ?_, ?_⟩
    · simp [Mem.modify]
    · simp [Mem.modify]
  · refine ⟨_, pre, sel, post,
      co_yield_resume fuel s k sel hcur hscan (by rw [hst]; exact hnew),
      rfl, hsplit, hpre', helig, ?_, ?_⟩
    · show ((s.mem.modify s.current (fun d => { d with context := k })) sel).status ≠ CO_DEAD
      rw [hst]; rcases helig with h | h <;> rw [h] <;> decide
    · show ((s.mem.modify s.current (fun d => { d with context := k })) sel).status ≠ CO_WAITING
      rw [hst]; rcases helig with h | h <;> rw [h] <;> decide


/-- Witness of C1: after `main` has created A and B, its `co_yield` selects A. -/
theorem co_yield_selects_first_eligible_witness :
    ring (stateAt 3 2 trace_main).mem (stateAt 3 2 trace_main).current [2, 3] ∧
    (∃ a ∈ (stateAt 3 2 trace_main).current :: [2, 3],
      eligible ((stateAt 3 2 trace_main).mem a).status = true) ∧
    ∃ s' pre sel post,
      co_yield 3 (stateAt 3 2 trace_main) Cont.rescheduling = some s' ∧ s'.current = sel ∧
      [2, 3] ++ [(stateAt 3 2 trace_main).current] = pre ++ sel :: post ∧
      (∀ x ∈ pre, ((stateAt 3 2 trace_main).mem x).status = CO_DEAD ∨
        ((stateAt 3 2 trace_main).mem x).status = CO_WAITING) ∧
      (((stateAt 3 2 trace_main).mem sel).status = CO_NEW ∨
        ((stateAt 3 2 trace_main).mem sel).status = CO_RUNNING) ∧
      (s'.mem sel).status ≠ CO_DEAD ∧ (s'.mem sel).status ≠ CO_WAITING :=
  ⟨⟨⟨rfl, rfl, rfl, trivial⟩, by decide, by decide⟩, ⟨2, by decide, rfl⟩,
    co_yield_selects_first_eligible 3 (stateAt 3 2 trace_main) Cont.rescheduling [2, 3]
      ⟨⟨rfl, rfl, rfl, trivial⟩, by decide, by decide⟩ ⟨2, by decide, rfl⟩ (by decide)⟩

/-- C8: round-robin fairness.  In a well-formed ring through an eligible
descriptor `a`, with N other eligible (New or Running) descriptors, the N+1
successive selections of the scan that start at `a`, no status and no link
changing in between, are the N other eligible descriptors in ring order, each
once, followed by `a`. -/
theorem round_robin_selections (m : Mem) (a : Addr) (rest : List Addr) (fuel : Nat)
    (hring : ring m a rest) (ha : eligible (m a).status = true)
    (hfuel : rest.length < fuel) :
    selections m fuel ((rest.filter fun x => eligible (m x).status).length + 1) a
        = some ((rest.filter fun x => eligible (m x).status) ++ [a]) ∧
      ((rest.filter fun x => eligible (m x).status) ++ [a]).Nodup := by
  have h := selections_linked m fuel (rest ++ [a]).length (rest ++ [a]) a rfl
    (by simpa using hring.1) (Or.inr ⟨rest, a, rfl, ha⟩) (by simp; omega)
  have hfil : (rest ++ [a]).filter (fun x => eligible (m x).status)
      = (rest.filter fun x => eligible (m x).status) ++ [a] := by
    simp [List.filter_append, List.filter_cons, ha]
  rw [hfil] at h
  refine ⟨by simpa using h, ?_⟩
  have hnd := hring.2.1
  rw [List.nodup_cons] at hnd
  rw [List.nodup_append]
  refine ⟨hnd.2.filter _, List.nodup_singleton a, ?_⟩
  intro x hx hxa
  rw [List.mem_singleton] at hxa
  subst hxa
  exact hnd.1 (List.mem_of_mem_filter hx)

/-- Witness of C8: in the ring of the concrete trace after A and B are created,
the selections from `main` are A, B, `main`. -/
theorem round_robin_selections_witness :
    selections (stateAt 3 2 trace_main).mem 3
        (([2, 3].filter fun x => eligible ((stateAt 3 2 trace_main).mem x).status).length + 1) 1
        = some (([2, 3].filter fun x => eligible ((stateAt 3 2 trace_main).mem x).status)
            ++ [1]) ∧
      (([2, 3].filter fun x => eligible ((stateAt 3 2 trace_main).mem x).status)
        ++ [1]).Nodup :=
  round_robin_selections (stateAt 3 2 trace_main).mem 1 [2, 3] 3
    ⟨⟨rfl, rfl, rfl, trivial⟩, by decide, by decide⟩ rfl (by decide)

/-- C10: in a well-formed ring of `n` descriptors the scan of `co_yield`
terminates (for some fuel) exactly when some descriptor of the ring, the caller
included, is New or Running, and then `n` steps are enough; when every
descriptor is Dead or Waiting the scan has selected nothing whatever the number
of steps. -/
theorem scan_terminates_iff_eligible (m : Mem) (cur : Addr) (rest : List Addr)
    (hring : ring m cur rest) :
    ((∃ fuel sel, scan m fuel cur = some sel) ↔
        ∃ a ∈ cur :: rest, eligible (m a).status = true) ∧
      ((∃ a ∈ cur :: rest, eligible (m a).status = true) →
        ∃ sel, scan m (rest.length + 1) cur = some sel) ∧
      ((∀ a ∈ cur :: rest, (m a).status = CO_DEAD ∨ (m a).status = CO_WAITING) →
        ∀ fuel, scan m fuel cur = none) := by
  have hbound : (∃ a ∈ cur :: rest, eligible (m a).status = true) →
      ∃ sel, scan m (rest.length + 1) cur = some sel := by
    intro hex
    have hex' : ∃ x ∈ rest ++ [cur], (fun x => eligible (m x).status) x = true := by
      obtain ⟨a, ha, he⟩ := hex
      refine ⟨a, ?_, he⟩
      rcases List.mem_cons.1 ha with rfl | ha
      · simp
      · simp [ha]
    obtain ⟨pre, sel, post, hsplit, hpre, hsel⟩ := exists_first _ _ hex'
    have hlen : (rest ++ [cur]).length = pre.length + 1 + post.length := by
      rw [hsplit]; simp; omega
    have hl : linked m (cur :: pre ++ [sel]) := by
      have h1 := hring.1
      rw [List.cons_append, hsplit] at h1
      exact ((linked_split m sel post (cur :: pre)).1 (by simpa using h1)).1
    refine ⟨sel, scan_linked m sel ?_ pre cur _ hl ?_ ?_⟩
    · have := hsel
      simp only [eligible_iff_not_skipped] at this
      simpa using this
    · intro x hx
      have := hpre x hx
      simp only [eligible_iff_not_skipped] at this
      simpa using this
    · simp at hlen; omega
  have hnone : (∀ a ∈ cur :: rest, (m a).status = CO_DEAD ∨ (m a).status = CO_WAITING) →
      ∀ fuel, scan m fuel cur = none := by
    intro hall fuel
    exact scan_none_of_closed m (cur :: rest)
      (fun x hx => ⟨ring_next_mem hring x hx, (skipped_iff _).2 (hall x hx)⟩) fuel cur
      (List.mem_cons_self _ _)
  refine ⟨⟨?_, fun hex => ⟨_, hbound hex⟩⟩, hbound, hnone⟩
  rintro ⟨fuel, sel, hscan⟩
  by_contra hno
  have hall : ∀ a ∈ cur :: rest, (m a).status = CO_DEAD ∨ (m a).status = CO_WAITING := by
    intro a ha
    have : eligible (m a).status ≠ true := fun h => hno ⟨a, ha, h⟩
    rw [eligible_iff_not_skipped] at this
    exact (skipped_iff _).1 (by simpa using this)
  rw [hnone hall fuel] at hscan
  cases hscan

/-- Witness of C10: the deadlock.  `main` waits for A, A waits for B, and B has
just executed lines 82-83 of its `co_wait(A)`: the three descriptors form a
ring, all are Waiting, and the scan selects nothing for any fuel. -/
theorem scan_terminates_iff_eligible_witness :
    ring (co_wait_mark (stateAt 3 5 deadlock_main) 2).mem 3 [2, 1] ∧
      (stateAt 3 5 deadlock_main).current = 3 ∧
      (∀ a ∈ [3, 2, 1],
        ((co_wait_mark (stateAt 3 5 deadlock_main) 2).mem a).status = CO_WAITING) ∧
      ∀ fuel, scan (co_wait_mark (stateAt 3 5 deadlock_main) 2).mem fuel 3 = none :=
  ⟨⟨⟨rfl, rfl, rfl, trivial⟩, by decide, by decide⟩, rfl, by decide,
    (scan_terminates_iff_eligible (co_wait_mark (stateAt 3 5 deadlock_main) 2).mem 3 [2, 1]
      ⟨⟨rfl, rfl, rfl, trivial⟩, by decide, by decide⟩).2.2 (by decide)⟩


/-! ## Ring surgery: `co_wait` and `co_start` -/

theorem ring_congr (m m' : Mem) (cur : Addr) (rest : List Addr)
    (h : ∀ x, (m' x).next = (m x).next) (hr : ring m cur rest) : ring m' cur rest := by
  refine ⟨?_, hr.2⟩
  have := linked_congr m m' cur (cur :: rest) (fun x _ => h x) (by simpa using hr.1)
  simpa using this

/-- The predecessor loop started at `a` walks over `l` and stops at the last
descriptor before `t`. -/
theorem find_prev_spec (m : Mem) (t : Addr) :
    ∀ (l : List Addr) (a : Addr) (fuel : Nat), linked m (a :: l ++ [t]) → t ∉ l →
      NULL ∉ l → l.length < fuel →
      ∃ q h, a :: l = q ++ [h] ∧ find_prev m t fuel a = some h
  | [], a, fuel + 1, hl, _, _, _ => by
    simp only [List.cons_append, List.nil_append, linked_cons_cons] at hl
    exact ⟨[], a, rfl, by simp [find_prev, hl.1]⟩
  | b :: l, a, fuel + 1, hl, ht, hn, hf => by
    simp only [List.cons_append, linked_cons_cons] at hl
    have hbt : b ≠ t := fun h => ht (by simp [h])
    have hbn : b ≠ NULL := fun h => hn (by simp [h])
    obtain ⟨q, h, hq, hfind⟩ := find_prev_spec m t l b fuel (by simpa using hl.2)
      (fun h => ht (List.mem_cons_of_mem _ h)) (fun h => hn (List.mem_cons_of_mem _ h))
      (by simpa using hf)
    refine ⟨a :: q, h, by rw [hq]; rfl, ?_⟩
    simp [find_prev, hl.1, hbt, hbn, hfind]

/-- Lines 87-96 of `co_wait` on a well-formed ring that holds `co` elsewhere than
at the caller: the caller becomes Running, the predecessor `h` of `co` gets the
successor of `co`, nothing else changes, and what is left is the ring without
`co`. -/
theorem co_wait_exit_spec (fuel : Nat) (s : State) (co : Addr) (k : Prog)
    (rest : List Addr) (hring : ring s.mem s.current rest) (hco : co ∈ rest)
    (hfuel : rest.length ≤ fuel) :
    ∃ s' pre post h,
      co_wait_exit fuel s co k = some s' ∧ s'.pc = Cont.host k ∧
      s'.current = s.current ∧ s'.root = s.root ∧ s'.brk = s.brk ∧
      s'.freed = s.freed ++ [co] ∧
      s'.trace = s.trace ++ [Event.wait_return s.current co] ∧
      rest = pre ++ co :: post ∧ ring s'.mem s.current (pre ++ post) ∧
      co ∉ s.current :: (pre ++ post) ∧
      h ∈ s.current :: pre ∧ (s.mem h).next = co ∧ (s'.mem h).next = (s.mem co).next ∧
      (∀ x, x ≠ h → (s'.mem x).next = (s.mem x).next) ∧
      (s'.mem s.current).status = CO_RUNNING ∧
      (∀ x, x ≠ s.current → (s'.mem x).status = (s.mem x).status) ∧
      (∀ x, (s'.mem x).waiter = (s.mem x).waiter ∧
        (s'.mem x).context = (s.mem x).context) := by
  obtain ⟨pre, post, hrest⟩ := List.append_of_mem hco
  subst hrest
  obtain ⟨hl, hnd, hnull⟩ := hring
  -- the caller becomes Running: no link changes
  have hr1 : ring (s.mem.modify s.current (fun d => { d with status := CO_RUNNING }))
      s.current (pre ++ co :: post) := by
    apply ring_congr s.mem _ _ _ _ ⟨hl, hnd, hnull⟩
    intro x
    by_cases hx : x = s.current
    · subst hx; simp [Mem.modify]
    · simp [Mem.modify, hx]
  have hf1 : ∀ x, ((s.mem.modify s.current (fun d => { d with status := CO_RUNNING })) x).next
        = (s.mem x).next ∧
      ((s.mem.modify s.current (fun d => { d with status := CO_RUNNING })) x).waiter
        = (s.mem x).waiter ∧
      ((s.mem.modify s.current (fun d => { d with status := CO_RUNNING })) x).context
        = (s.mem x).context ∧
      (x ≠ s.current →
        ((s.mem.modify s.current (fun d => { d with status := CO_RUNNING })) x).status
          = (s.mem x).status) := by
    intro x
    by_cases hx : x = s.current
    · subst hx; simp [Mem.modify]
    · simp [Mem.modify, hx]
  generalize hm1 : s.mem.modify s.current (fun d => { d with status := CO_RUNNING }) = m1
    at hr1 hf1
  have hst1 : (m1 s.current).status = CO_RUNNING := by
    rw [← hm1]; simp [Mem.modify]
  have hl1 := hr1.1
  have hsplit := (linked_split m1 co (post ++ [s.current]) (s.current :: pre)).1
    (by simpa using hl1)
  have hnd' : co ∉ pre ∧ co ∉ post ∧ co ≠ s.current := by
    have h1 := List.nodup_cons.1 hnd
    have h2 := List.nodup_cons.1 (List.nodup_middle.1 h1.2)
    exact ⟨fun h => h2.1 (List.mem_append_left _ h), fun h => h2.1 (List.mem_append_right _ h),
      fun h => h1.1 (by simp [h])⟩
  have hnull' : NULL ∉ pre := fun h => hnull (by simp [h])
  obtain ⟨q, h, hq, hfind⟩ := find_prev_spec m1 co pre s.current fuel
    (by simpa using hsplit.1) hnd'.1 hnull' (by simp at hfuel; omega)
  -- the links around `h`
  have hlq : linked m1 (q ++ [h]) ∧ linked m1 [h, co] := by
    have h2 := hsplit.1
    rw [show s.current :: pre ++ [co] = q ++ h :: [co] by rw [hq]; simp] at h2
    exact (linked_split m1 h [co] q).1 h2
  have hnext_h : (m1 h).next = co := hlq.2.1
  obtain ⟨nx, tl, hpost⟩ : ∃ nx tl, post ++ [s.current] = nx :: tl := by
    cases post with
    | nil => exact ⟨_, _, rfl⟩
    | cons p ps => exact ⟨_, _, rfl⟩
  have hnext_co : (m1 co).next = nx := by
    have h2 := hsplit.2
    rw [hpost] at h2
    exact h2.1
  have hlpost : linked m1 (post ++ [s.current]) := linked_tail m1 co _ hsplit.2
  -- distinctness facts about `h`
  have hnd2 : (q ++ [h] ++ post).Nodup := by
    have h1 : (s.current :: pre ++ post).Nodup := by
      have h2 : (s.current :: pre ++ post).Sublist (s.current :: (pre ++ co :: post)) := by
        simp only [List.cons_append]
        exact (List.Sublist.refl _).cons₂ _ |>.trans
          (List.Sublist.cons₂ _ (List.Sublist.append_left (List.sublist_cons_self _ _) _))
      exact hnd.sublist h2
    rw [← hq]; exact h1
  have hhq : h ∉ q := by
    have h1 := (List.nodup_append.1 hnd2).1
    intro hmem
    exact (List.nodup_append.1 h1).2.2 hmem (List.mem_singleton_self h)
  have hhpost : h ∉ post := by
    have h1 := hnd2
    rw [List.nodup_append] at h1
    intro hmem
    exact h1.2.2 (by simp) hmem
  generalize hm2 : m1.modify h (fun d => { d with next := (m1 (m1 h).next).next }) = m2
  have hm2h : (m2 h).next = nx := by
    rw [← hm2]; simp [Mem.modify, hnext_h, hnext_co]
  have hm2o : ∀ x, x ≠ h → (m2 x).next = (m1 x).next := by
    intro x hx; rw [← hm2]; simp [Mem.modify, hx]
  have hf2 : ∀ x, (m2 x).status = (m1 x).status ∧ (m2 x).waiter = (m1 x).waiter ∧
      (m2 x).context = (m1 x).context := by
    intro x
    rw [← hm2]
    by_cases hx : x = h
    · subst hx; simp [Mem.modify]
    · simp [Mem.modify, hx]
  have hl2 : linked m2 (s.current :: (pre ++ post) ++ [s.current]) := by
    rw [show s.current :: (pre ++ post) ++ [s.current] = q ++ h :: (post ++ [s.current]) by
      rw [← List.cons_append, ← List.cons_append, hq]; simp]
    rw [linked_split]
    constructor
    · exact linked_congr m1 m2 h q (fun x hx => hm2o x (fun e => hhq (e ▸ hx))) hlq.1
    · rw [hpost, linked_cons_cons]
      refine ⟨hm2h, ?_⟩
      rw [← hpost]
      exact linked_congr m1 m2 s.current post
        (fun x hx => hm2o x (fun e => hhpost (e ▸ hx))) hlpost
  have hnd3 : (s.current :: (pre ++ post)).Nodup := by
    rw [← List.cons_append, hq]; exact hnd2
  have hnull3 : NULL ∉ s.current :: (pre ++ post) := by
    intro hmem
    apply hnull
    simp only [List.mem_cons, List.mem_append] at hmem ⊢
    tauto
  have hco3 : co ∉ s.current :: (pre ++ post) := by
    simp only [List.mem_cons, List.mem_append, not_or]
    exact ⟨hnd'.2.2, hnd'.1, hnd'.2.1⟩
  have hring2 : ring m2 s.current (pre ++ post) := ⟨hl2, hnd3, hnull3⟩
  have hst2 : (m2 s.current).status = CO_RUNNING := by
    rw [← hm2]
    by_cases hx : s.current = h
    · simp [Mem.modify, hx]; rw [← hx]; exact hst1
    · simp [Mem.modify, hx]; exact hst1
  have hres : co_wait_exit fuel s co k = some { s with
      mem := m2
      pc := Cont.host k
      freed := s.freed ++ [co]
      trace := s.trace ++ [Event.wait_return s.current co] } := by
    simp only [co_wait_exit, hm1, hfind, hm2]
  have hhmem : h ∈ s.current :: pre := by rw [hq]; simp
  refine ⟨_, pre, post, h, hres, rfl, rfl, rfl, rfl, rfl, rfl, rfl, hring2, hco3, hhmem,
    ?_, ?_, ?_, hst2, ?_, ?_⟩
  · rw [← (hf1 h).1]; exact hnext_h
  · show (m2 h).next = _
    rw [hm2h, ← (hf1 co).1, hnext_co]
  · intro x hx
    show (m2 x).next = _
    rw [hm2o x hx, (hf1 x).1]
  · intro x hx
    show (m2 x).status = _
    rw [(hf2 x).1, (hf1 x).2.2.2 hx]
  · intro x
    show (m2 x).waiter = _ ∧ (m2 x).context = _
    rw [(hf2 x).2.1, (hf2 x).2.2, (hf1 x).2.1, (hf1 x).2.2.1]
    exact ⟨rfl, rfl⟩

/-- C3: when `co_wait(co)` leaves its loop in a well-formed ring that holds
`co` at another place than the caller, it returns to its caller with current
unchanged and Running, and `co` is unlinked: the other descriptors form the
ring in the same order, one descriptor shorter, and no number of `next`-links
from current leads to `co`. -/
theorem co_wait_return_unlinks (fuel : Nat) (s : State) (co : Addr) (k : Prog)
    (rest : List Addr) (hring : ring s.mem s.current rest) (hco : co ∈ rest)
    (hdead : (s.mem co).status = CO_DEAD) (hfuel : rest.length ≤ fuel) :
    ∃ s' pre post,
      co_wait_loop fuel s co k = some s' ∧ s'.pc = Cont.host k ∧
      s'.current = s.current ∧ (s'.mem s'.current).status = CO_RUNNING ∧
      rest = pre ++ co :: post ∧ ring s'.mem s'.current (pre ++ post) ∧
      co ∉ s'.current :: (pre ++ post) ∧
      (∀ n, follow s'.mem n s'.current ≠ co) ∧
      (pre ++ post).length + 1 = rest.length ∧
      s'.freed = s.freed ++ [co] := by
  obtain ⟨s', pre, post, h, hres, hpc, hcur, -, -, hfreed, -, hrest, hring2, hco3, -, -, -, -,
    hst, -, -⟩ := co_wait_exit_spec fuel s co k rest hring hco hfuel
  have hloop : co_wait_loop fuel s co k = some s' := by
    simp only [co_wait_loop, hdead, ne_eq, not_true_eq_false, if_false]
    exact hres
  refine ⟨s', pre, post, hloop, hpc, hcur, by rw [hcur]; exact hst, hrest,
    by rw [hcur]; exact hring2, by rw [hcur]; exact hco3, ?_, ?_, hfreed⟩
  · intro n hn
    rw [hcur] at hn
    have := ring_follow_mem hring2 n s.current (List.mem_cons_self _ _)
    exact hco3 (hn ▸ this)
  · rw [hrest]; simp; omega

/-- Witness of C3: in the transitive wait, A leaves its wait for B in the ring
A, `main`, B, which becomes the ring A, `main`. -/
theorem co_wait_return_unlinks_witness :
    ring (stateAt 3 5 transitive_main).mem (stateAt 3 5 transitive_main).current [1, 3] ∧
    ((stateAt 3 5 transitive_main).mem 3).status = CO_DEAD ∧
    ∃ s' pre post,
      co_wait_loop 3 (stateAt 3 5 transitive_main) 3 Prog.ret = some s' ∧
      s'.pc = Cont.host Prog.ret ∧
      s'.current = (stateAt 3 5 transitive_main).current ∧
      (s'.mem s'.current).status = CO_RUNNING ∧
      [1, 3] = pre ++ 3 :: post ∧ ring s'.mem s'.current (pre ++ post) ∧
      3 ∉ s'.current :: (pre ++ post) ∧
      (∀ n, follow s'.mem n s'.current ≠ 3) ∧
      (pre ++ post).length + 1 = [1, 3].length ∧
      s'.freed = (stateAt 3 5 transitive_main).freed ++ [3] :=
  ⟨⟨⟨rfl, rfl, rfl, trivial⟩, by decide, by decide⟩, rfl,
    co_wait_return_unlinks 3 (stateAt 3 5 transitive_main) 3 Prog.ret [1, 3]
      ⟨⟨rfl, rfl, rfl, trivial⟩, by decide, by decide⟩ (by decide) rfl (by decide)⟩

/-- Counterexample to C4: in the ring `main`, A, the `co_start` of B by `main`
leaves `main`'s successor A, and B's successor is `main`, not A. -/
theorem co_start_not_after_current :
    ring (stateAt 3 1 trace_main).mem (stateAt 3 1 trace_main).current [2] ∧
    ∃ s', co_start 3 (stateAt 3 1 trace_main) 3 "B" (token_entry 20) 0 = some s' ∧
      (s'.mem (stateAt 3 1 trace_main).current).next ≠ 3 ∧
      (s'.mem 3).next ≠
        ((stateAt 3 1 trace_main).mem (stateAt 3 1 trace_main).current).next :=
  ⟨⟨⟨rfl, rfl, trivial⟩, by decide, by decide⟩, _, rfl, by decide, by decide⟩

/-- Writing the `next` field changes no other field. -/
theorem modify_next (m : Mem) (a n x : Addr) :
    ((m.modify a (fun d => { d with next := n })) x).status = (m x).status ∧
    ((m.modify a (fun d => { d with next := n })) x).waiter = (m x).waiter ∧
    ((m.modify a (fun d => { d with next := n })) x).context = (m x).context ∧
    ((m.modify a (fun d => { d with next := n })) x).func = (m x).func ∧
    ((m.modify a (fun d => { d with next := n })) x).arg = (m x).arg ∧
    ((m.modify a (fun d => { d with next := n })) x).name = (m x).name := by
  by_cases hx : x = a
  · subst hx; simp [Mem.modify]
  · simp [Mem.modify, hx]

/-- The source's `co_start` on a well-formed ring, with a fresh block: the ring
predecessor `h` of current gets the block as successor, the block gets current
as successor and the given entry, argument and name with status New, and
nothing else changes; the new ring is the old one followed by the block. -/
theorem co_start_spec (fuel : Nat) (s : State) (start : Addr)
    (name : String) (func : Nat → Prog) (arg : Nat) (rest : List Addr)
    (hring : ring s.mem s.current rest) (hfresh : start ∉ s.current :: rest)
    (hnn : start ≠ NULL) (hfuel : rest.length < fuel) :
    ∃ s' q h,
      co_start fuel s start name func arg = some s' ∧
      s.current :: rest = q ++ [h] ∧ s'.current = s.current ∧ s'.pc = s.pc ∧
      s'.root = s.root ∧ s'.brk = s.brk ∧ s'.freed = s.freed ∧ s'.trace = s.trace ∧
      (s'.mem h).next = start ∧ (s'.mem start).next = s.current ∧
      ring s'.mem s.current (rest ++ [start]) ∧
      (∀ x, x ≠ h → x ≠ start → (s'.mem x).next = (s.mem x).next) ∧
      (∀ x, x ≠ start → (s'.mem x).status = (s.mem x).status) ∧
      (s'.mem start).status = CO_NEW ∧ (s'.mem start).func = func ∧
      (s'.mem start).arg = arg ∧ (s'.mem start).name = name ∧
      (∀ x, (s'.mem x).waiter = (s.mem x).waiter ∧
        (s'.mem x).context = (s.mem x).context) := by
  have hcur : s.current ≠ NULL := fun h => hring.2.2 (by rw [h]; simp)
  have hr1 : ring (s.mem.modify start
      (fun d => { d with arg := arg, func := func, status := CO_NEW, name := name }))
      s.current rest := by
    apply ring_congr s.mem _ _ _ _ hring
    intro x
    by_cases hx : x = start
    · subst hx; simp [Mem.modify]
    · simp [Mem.modify, hx]
  have hnext1 : ∀ x, ((s.mem.modify start
      (fun d => { d with arg := arg, func := func, status := CO_NEW, name := name })) x).next
      = (s.mem x).next := by
    intro x
    by_cases hx : x = start
    · subst hx; simp [Mem.modify]
    · simp [Mem.modify, hx]
  have hf1 : ∀ x, ((s.mem.modify start (fun d =>
        { d with arg := arg, func := func, status := CO_NEW, name := name })) x).waiter
        = (s.mem x).waiter ∧
      ((s.mem.modify start (fun d =>
        { d with arg := arg, func := func, status := CO_NEW, name := name })) x).context
        = (s.mem x).context ∧
      (x ≠ start → ((s.mem.modify start (fun d =>
        { d with arg := arg, func := func, status := CO_NEW, name := name })) x).status
        = (s.mem x).status) := by
    intro x
    by_cases hx : x = start
    · subst hx; simp [Mem.modify]
    · simp [Mem.modify, hx]
  have hs1 : ((s.mem.modify start (fun d =>
        { d with arg := arg, func := func, status := CO_NEW, name := name })) start).status
        = CO_NEW ∧
      ((s.mem.modify start (fun d =>
        { d with arg := arg, func := func, status := CO_NEW, name := name })) start).func
        = func ∧
      ((s.mem.modify start (fun d =>
        { d with arg := arg, func := func, status := CO_NEW, name := name })) start).arg
        = arg ∧
      ((s.mem.modify start (fun d =>
        { d with arg := arg, func := func, status := CO_NEW, name := name })) start).name
        = name := by
    simp [Mem.modify]
  generalize hm1 : s.mem.modify start
    (fun d => { d with arg := arg, func := func, status := CO_NEW, name := name }) = m1
    at hr1 hnext1 hf1 hs1
  obtain ⟨hl, hnd, hnull⟩ := hr1
  have hcr : s.current ∉ rest := (List.nodup_cons.1 hnd).1
  obtain ⟨q, h, hq, hfind⟩ := find_prev_spec m1 s.current rest s.current fuel hl hcr
    (fun hn => hnull (List.mem_cons_of_mem _ hn)) hfuel
  have hhmem : h ∈ s.current :: rest := by rw [hq]; simp
  have hhs : h ≠ start := fun e => hfresh (e ▸ hhmem)
  have hcs : s.current ≠ start := fun e => hfresh (by rw [← e]; simp)
  have hndq : (q ++ [h]).Nodup := hq ▸ hnd
  have hhq : h ∉ q := fun hmem =>
    (List.nodup_append.1 hndq).2.2 hmem (List.mem_singleton_self h)
  have hlq : linked m1 (q ++ [h]) := by
    have h2 := hl
    rw [hq] at h2
    exact ((linked_split m1 h [s.current] q).1 (by simpa using h2)).1
  have hfr : ∀ x, (((m1.modify h (fun d => { d with next := start })).modify start
      (fun d => { d with next := s.current })) x).status = (m1 x).status ∧
      (((m1.modify h (fun d => { d with next := start })).modify start
      (fun d => { d with next := s.current })) x).waiter = (m1 x).waiter ∧
      (((m1.modify h (fun d => { d with next := start })).modify start
      (fun d => { d with next := s.current })) x).context = (m1 x).context ∧
      (((m1.modify h (fun d => { d with next := start })).modify start
      (fun d => { d with next := s.current })) x).func = (m1 x).func ∧
      (((m1.modify h (fun d => { d with next := start })).modify start
      (fun d => { d with next := s.current })) x).arg = (m1 x).arg ∧
      (((m1.modify h (fun d => { d with next := start })).modify start
      (fun d => { d with next := s.current })) x).name = (m1 x).name := by
    intro x
    have e1 := modify_next (m1.modify h (fun d => { d with next := start })) start s.current x
    have e2 := modify_next m1 h start x
    exact ⟨e1.1.trans e2.1, e1.2.1.trans e2.2.1, e1.2.2.1.trans e2.2.2.1,
      e1.2.2.2.1.trans e2.2.2.2.1, e1.2.2.2.2.1.trans e2.2.2.2.2.1,
      e1.2.2.2.2.2.trans e2.2.2.2.2.2⟩
  generalize hm3 : (m1.modify h (fun d => { d with next := start })).modify start
    (fun d => { d with next := s.current }) = m3 at hfr
  have hm3h : (m3 h).next = start := by
    rw [← hm3]; simp [Mem.modify, hhs]
  have hm3s : (m3 start).next = s.current := by
    rw [← hm3]; simp [Mem.modify]
  have hm3o : ∀ x, x ≠ h → x ≠ start → (m3 x).next = (s.mem x).next := by
    intro x hx1 hx2
    rw [← hm3, ← hnext1 x]; simp [Mem.modify, hx1, hx2]
  have hl3 : linked m3 (s.current :: (rest ++ [start]) ++ [s.current]) := by
    rw [show s.current :: (rest ++ [start]) ++ [s.current] = q ++ h :: [start, s.current] by
      rw [← List.cons_append, hq]; simp]
    rw [linked_split]
    refine ⟨?_, hm3h, hm3s, trivial⟩
    apply linked_congr m1 m3 h q _ hlq
    intro x hx
    rw [hm3o x (fun e => hhq (e ▸ hx))
      (fun e => hfresh (by rw [hq, ← e]; simp [hx])), hnext1]
  have hnd3 : (s.current :: (rest ++ [start])).Nodup := by
    rw [← List.cons_append, List.nodup_append]
    refine ⟨hnd, List.nodup_singleton _, ?_⟩
    intro x hx hxs
    rw [List.mem_singleton] at hxs
    exact hfresh (hxs ▸ hx)
  have hnull3 : NULL ∉ s.current :: (rest ++ [start]) := by
    intro hmem
    rw [← List.cons_append, List.mem_append, List.mem_singleton] at hmem
    rcases hmem with hmem | hmem
    · exact hnull hmem
    · exact hnn hmem.symm
  have hres : co_start fuel s start name func arg = some { s with mem := m3 } := by
    simp only [co_start, if_neg hcur, if_neg hnn, hm1, hfind, hm3]
  refine ⟨_, q, h, hres, hq, rfl, rfl, rfl, rfl, rfl, rfl, hm3h, hm3s, ⟨hl3, hnd3, hnull3⟩,
    hm3o, ?_, ?_, ?_, ?_, ?_, ?_⟩
  · intro x hx
    show (m3 x).status = _
    rw [(hfr x).1, (hf1 x).2.2 hx]
  · show (m3 start).status = _
    rw [(hfr start).1, hs1.1]
  · show (m3 start).func = _
    rw [(hfr start).2.2.2.1, hs1.2.1]
  · show (m3 start).arg = _
    rw [(hfr start).2.2.2.2.1, hs1.2.2.1]
  · show (m3 start).name = _
    rw [(hfr start).2.2.2.2.2, hs1.2.2.2]
  · intro x
    show (m3 x).waiter = _ ∧ (m3 x).context = _
    rw [(hfr x).2.1, (hfr x).2.2.1, (hf1 x).1, (hf1 x).2.1]
    exact ⟨rfl, rfl⟩

/-- C4, as the code has it: in a well-formed ring `co_start` inserts the new
descriptor immediately before current, at the end of a forward walk from
current: the ring predecessor `h` of current gets the new descriptor as
successor and the new descriptor's successor is current; current's own successor
is the new descriptor only when the ring was current alone, and is unchanged
otherwise. -/
theorem co_start_inserts_before_current (fuel : Nat) (s : State) (start : Addr)
    (name : String) (func : Nat → Prog) (arg : Nat) (rest : List Addr)
    (hring : ring s.mem s.current rest) (hfresh : start ∉ s.current :: rest)
    (hnn : start ≠ NULL) (hfuel : rest.length < fuel) :
    ∃ s' q h,
      co_start fuel s start name func arg = some s' ∧
      s.current :: rest = q ++ [h] ∧ s'.current = s.current ∧
      (s'.mem h).next = start ∧ (s'.mem start).next = s.current ∧
      ring s'.mem s'.current (rest ++ [start]) ∧
      (rest = [] → (s'.mem s.current).next = start) ∧
      (rest ≠ [] → (s'.mem s.current).next = (s.mem s.current).next ∧
        (s'.mem s.current).next ≠ start) := by
  obtain ⟨s', q, h, hres, hq, hcur, -, -, -, -, -, hh, hs, hring3, hothers, -⟩ :=
    co_start_spec fuel s start name func arg rest hring hfresh hnn hfuel
  have hnd := hring.2.1
  have hcs : s.current ≠ start := fun e => hfresh (by rw [← e]; simp)
  have hndq : (q ++ [h]).Nodup := hq ▸ hnd
  have hhq : h ∉ q := fun hmem =>
    (List.nodup_append.1 hndq).2.2 hmem (List.mem_singleton_self h)
  refine ⟨s', q, h, hres, hq, hcur, hh, hs, by rw [hcur]; exact hring3, ?_, ?_⟩
  · intro hrest
    subst hrest
    have : q = [] ∧ h = s.current := by
      cases q with
      | nil => simp at hq; exact ⟨rfl, hq.symm⟩
      | cons a t =>
        have := congrArg List.length hq
        simp at this
    rw [← this.2]; exact hh
  · intro hrest
    have hch : s.current ≠ h := by
      cases q with
      | nil =>
        have := congrArg List.length hq
        cases rest with
        | nil => exact absurd rfl hrest
        | cons a t => simp at this
      | cons a t =>
        have ha : a = s.current := by
          have := hq; simp at this; exact this.1.symm
        intro e
        exact hhq (by rw [← e, ← ha]; simp)
    have h1 : (s'.mem s.current).next = (s.mem s.current).next := hothers _ hch hcs
    refine ⟨h1, ?_⟩
    rw [h1]
    intro e
    exact hfresh (e ▸ ring_next_mem hring s.current (List.mem_cons_self _ _))

/-- Witness of C4 as amended: the `co_start` of B by `main` in the ring `main`,
A. -/
theorem co_start_inserts_before_current_witness :
    ring (stateAt 3 1 trace_main).mem (stateAt 3 1 trace_main).current [2] ∧
    ∃ s' q h,
      co_start 3 (stateAt 3 1 trace_main) 3 "B" (token_entry 20) 0 = some s' ∧
      (stateAt 3 1 trace_main).current :: [2] = q ++ [h] ∧
      s'.current = (stateAt 3 1 trace_main).current ∧
      (s'.mem h).next = 3 ∧ (s'.mem 3).next = (stateAt 3 1 trace_main).current ∧
      ring s'.mem s'.current ([2] ++ [3]) ∧
      (([2] : List Addr) = [] → (s'.mem (stateAt 3 1 trace_main).current).next = 3) ∧
      (([2] : List Addr) ≠ [] → (s'.mem (stateAt 3 1 trace_main).current).next
          = ((stateAt 3 1 trace_main).mem (stateAt 3 1 trace_main).current).next ∧
        (s'.mem (stateAt 3 1 trace_main).current).next ≠ 3) :=
  ⟨⟨⟨rfl, rfl, trivial⟩, by decide, by decide⟩,
    co_start_inserts_before_current 3 (stateAt 3 1 trace_main) 3 "B" (token_entry 20) 0 [2]
      ⟨⟨rfl, rfl, trivial⟩, by decide, by decide⟩ (by decide) (by decide) (by decide)⟩


/-- C5, at a failing input: `co_start` on a block whose `waiter` field holds a
stale pointer returns a descriptor that is New and carries the entry and the
argument, but whose `waiter` is the stale pointer, not `NULL`: `co_start`
never writes the field. -/
theorem co_start_waiter_uninitialised :
    ∃ s0 s', init recycled trace_main = some s0 ∧
      co_start 1 s0 2 "A" (token_entry 10) 7 = some s' ∧
      (s'.mem 2).status = CO_NEW ∧ (s'.mem 2).func = token_entry 10 ∧
      (s'.mem 2).arg = 7 ∧ (s0.mem s0.current).waiter = NULL ∧
      (s'.mem 2).waiter = 1 ∧ (s'.mem 2).waiter ≠ NULL :=
  ⟨_, _, rfl, rfl, rfl, rfl, rfl, rfl, rfl, by decide⟩

/-- Lines 120-124: the entry function of current has returned and current has a
waiter. -/
theorem entry_return_waiter (fuel : Nat) (s : State)
    (hw : (s.mem s.current).waiter ≠ NULL) :
    entry_return fuel s = some { s with
      mem := s.mem.modify s.current (fun d => { d with status := CO_DEAD })
      trace := s.trace ++ [Event.dead s.current]
      current := (s.mem s.current).waiter
      pc := ((s.mem.modify s.current (fun d => { d with status := CO_DEAD }))
        (s.mem s.current).waiter).context } := by
  have h1 : ((s.mem.modify s.current (fun d => { d with status := CO_DEAD }))
      s.current).waiter = (s.mem s.current).waiter := by
    simp [Mem.modify]
  have h2 : ((s.mem.modify s.current (fun d => { d with status := CO_DEAD }))
      s.current).waiter ≠ NULL := by rw [h1]; exact hw
  simp only [entry_return, h1]
  rw [if_pos hw]

/-- Lines 120-126: the entry function of current has returned and current has
no waiter. -/
theorem entry_return_no_waiter (fuel : Nat) (s : State)
    (hw : (s.mem s.current).waiter = NULL) :
    entry_return fuel s = co_yield fuel { s with
      mem := s.mem.modify s.current (fun d => { d with status := CO_DEAD })
      trace := s.trace ++ [Event.dead s.current] } Cont.rescheduling := by
  have h1 : ((s.mem.modify s.current (fun d => { d with status := CO_DEAD }))
      s.current).waiter = (s.mem s.current).waiter := by
    simp [Mem.modify]
  have h2 : ¬ ((s.mem.modify s.current (fun d => { d with status := CO_DEAD }))
      s.current).waiter ≠ NULL := by rw [h1]; simpa using hw
  simp only [entry_return, if_neg h2]

/-- Writing the `context` field changes neither a link nor a status. -/
theorem modify_context (m : Mem) (a : Addr) (c : Cont) (x : Addr) :
    ((m.modify a (fun d => { d with context := c })) x).next = (m x).next ∧
    ((m.modify a (fun d => { d with context := c })) x).status = (m x).status := by
  by_cases hx : x = a
  · subst hx; simp [Mem.modify]
  · simp [Mem.modify, hx]

/-- Writing the `status` field changes no link. -/
theorem modify_status_next (m : Mem) (a : Addr) (st : co_status) (x : Addr) :
    ((m.modify a (fun d => { d with status := st })) x).next = (m x).next := by
  by_cases hx : x = a
  · subst hx; simp [Mem.modify]
  · simp [Mem.modify, hx]

theorem scan_mono (m : Mem) :
    ∀ (f f' : Nat) (p q : Addr), scan m f p = some q → f ≤ f' → scan m f' p = some q
  | 0, _, _, _, h, _ => by simp [scan] at h
  | f + 1, 0, _, _, _, hle => by omega
  | f + 1, f' + 1, p, q, h, hle => by
    simp only [scan] at h ⊢
    by_cases hs : skipped (m (m p).next).status = true
    · rw [if_pos hs] at h ⊢
      exact scan_mono m f f' _ q h (by omega)
    · rw [if_neg hs] at h ⊢
      exact h

theorem find_prev_mono (m : Mem) (t : Addr) :
    ∀ (f f' : Nat) (p q : Addr), find_prev m t f p = some q → f ≤ f' →
      find_prev m t f' p = some q
  | 0, _, _, _, h, _ => by simp [find_prev] at h
  | f + 1, 0, _, _, _, hle => by omega
  | f + 1, f' + 1, p, q, h, hle => by
    simp only [find_prev] at h ⊢
    by_cases h1 : (m p).next = t
    · rw [if_pos h1] at h ⊢
      exact h
    · rw [if_neg h1] at h ⊢
      by_cases h2 : (m p).next = NULL
      · rw [if_pos h2] at h
        cases h
      · rw [if_neg h2] at h ⊢
        exact find_prev_mono m t f f' _ q h (by omega)

theorem co_yield_mono (f f' : Nat) (s s' : State) (k : Cont)
    (h : co_yield f s k = some s') (hle : f ≤ f') : co_yield f' s k = some s' := by
  by_cases hcur : s.current = NULL
  · simp [co_yield, hcur] at h
  · cases hscan : scan (s.mem.modify s.current (fun d => { d with context := k })) f
        s.current with
    | none => simp [co_yield, hcur, hscan] at h
    | some q =>
      have hscan' := scan_mono _ f f' _ q hscan hle
      simp only [co_yield, if_neg hcur, hscan] at h
      simp only [co_yield, if_neg hcur, hscan']
      exact h

theorem co_start_mono (f f' : Nat) (s s' : State) (start : Addr) (name : String)
    (func : Nat → Prog) (arg : Nat) (h : co_start f s start name func arg = some s')
    (hle : f ≤ f') : co_start f' s start name func arg = some s' := by
  by_cases hcur : s.current = NULL
  · simp [co_start, hcur] at h
  · by_cases hst : start = NULL
    · simp [co_start, hcur, hst] at h
    · cases hf : find_prev (s.mem.modify start (fun d =>
          { d with arg := arg, func := func, status := CO_NEW, name := name }))
          s.current f s.current with
      | none => simp [co_start, hcur, hst, hf] at h
      | some p =>
        have hf' := find_prev_mono _ _ f f' _ p hf hle
        simp only [co_start, if_neg hcur, if_neg hst, hf] at h
        simp only [co_start, if_neg hcur, if_neg hst, hf']
        exact h

theorem co_wait_loop_mono (f f' : Nat) (s s' : State) (co : Addr) (k : Prog)
    (h : co_wait_loop f s co k = some s') (hle : f ≤ f') :
    co_wait_loop f' s co k = some s' := by
  by_cases hd : (s.mem co).status = CO_DEAD
  · simp only [co_wait_loop, hd, ne_eq, not_true_eq_false, if_false] at h ⊢
    cases hf : find_prev (s.mem.modify s.current (fun d => { d with status := CO_RUNNING }))
        co f s.current with
    | none => simp [co_wait_exit, hf] at h
    | some p =>
      have hf' := find_prev_mono _ _ f f' _ p hf hle
      simp only [co_wait_exit, hf] at h
      simp only [co_wait_exit, hf']
      exact h
  · simp only [co_wait_loop, ne_eq, hd, not_false_eq_true, if_true] at h ⊢
    exact co_yield_mono f f' s s' _ h hle

theorem step_mono (f f' : Nat) (s s' : State) (h : step f s = some s') (hle : f ≤ f') :
    step f' s = some s' := by
  unfold step at h ⊢
  split at h
  · rename_i hpc
    by_cases hr : s.current = s.root
    · simp [hr] at h
    · rw [if_neg hr] at h ⊢
      by_cases hw : (s.mem s.current).waiter = NULL
      · rw [entry_return_no_waiter f s hw] at h
        rw [entry_return_no_waiter f' s hw]
        exact co_yield_mono f f' _ s' _ h hle
      · rw [entry_return_waiter f s hw] at h
        rw [entry_return_waiter f' s hw]
        exact h
  · rename_i hpc
    exact h
  · rename_i hpc
    exact co_yield_mono f f' s s' _ h hle
  · rename_i name func arg k hpc
    cases hc : co_start f (malloc s).2 (malloc s).1 name func arg with
    | none => simp [hc] at h
    | some s1 =>
      rw [co_start_mono f f' _ s1 _ _ _ _ hc hle]
      simpa [hc] using h
  · rename_i co k hpc
    by_cases hcur : s.current = NULL
    · simp [co_wait, hcur] at h
    · simp only [co_wait, if_neg hcur] at h ⊢
      exact co_wait_loop_mono f f' _ s' co k h hle
  · rename_i hpc
    exact h
  · rename_i co k hpc
    exact co_wait_loop_mono f f' s s' co k h hle
  · cases h

theorem exec_mono (f f' : Nat) (hle : f ≤ f') :
    ∀ (n : Nat) (s s' : State), exec f n s = some s' → exec f' n s = some s'
  | 0, _, _, h => h
  | n + 1, s, s', h => by
    cases hs : step f s with
    | none => simp [exec, hs] at h
    | some s1 =>
      simp only [exec, hs, Option.some_bind] at h
      simp only [exec, step_mono f f' s s1 hs hle, Option.some_bind]
      exact exec_mono f f' hle n s1 s' h

/-- A run from `co_constructor` that succeeds with fuel `f` is the same with any
larger fuel. -/
theorem run_mono (f f' n : Nat) (prog : Prog) (hle : f ≤ f')
    (h : ((init zeroed prog).bind (exec f n)).isSome = true) :
    (init zeroed prog).bind (exec f' n) = (init zeroed prog).bind (exec f n) := by
  cases hi : init zeroed prog with
  | none => simp [hi] at h
  | some s0 =>
    simp only [hi, Option.some_bind] at h ⊢
    cases he : exec f n s0 with
    | none => simp [he] at h
    | some s1 => rw [exec_mono f f' hle n s0 s1 he]

theorem stateAt_mono (f f' n : Nat) (prog : Prog) (hle : f ≤ f')
    (h : ((init zeroed prog).bind (exec f n)).isSome = true) :
    stateAt f' n prog = stateAt f n prog := by
  unfold stateAt
  rw [run_mono f f' n prog hle h]


/-- The concrete trace, run with fuel 3. -/
theorem trace_main_run :
    ((init zeroed trace_main).bind (exec 3 11)).isSome = true ∧
    (stateAt 3 2 trace_main).root = 1 ∧
    ((stateAt 3 2 trace_main).mem 2).name = "A" ∧
    ((stateAt 3 2 trace_main).mem 3).name = "B" ∧
    ((stateAt 3 2 trace_main).mem 2).waiter = NULL ∧
    ((stateAt 3 2 trace_main).mem 3).waiter = NULL ∧
    ring (stateAt 3 2 trace_main).mem 1 [2, 3] ∧
    selected (stateAt 3 11 trace_main).trace = [2, 3, 1, 2, 3, 1, 1] ∧
    tokens (stateAt 3 11 trace_main).trace = [10, 20] ∧
    (stateAt 3 11 trace_main).trace =
      [Event.select 2, Event.enter 2, Event.token 10, Event.select 3, Event.enter 3,
        Event.token 20, Event.select 1, Event.select 2, Event.dead 2, Event.select 3,
        Event.dead 3, Event.select 1, Event.select 1] ∧
    (selected (stateAt 3 11 trace_main).trace).count 2 = 2 ∧
    (selected (stateAt 3 11 trace_main).trace).count 3 = 2 ∧
    (stateAt 3 10 trace_main).current = 1 ∧
    (stateAt 3 10 trace_main).pc = Cont.host (Prog.yield Prog.ret) ∧
    selected (stateAt 3 10 trace_main).trace = [2, 3, 1, 2, 3, 1] ∧
    ((stateAt 3 10 trace_main).mem 2).status = CO_DEAD ∧
    ((stateAt 3 10 trace_main).mem 3).status = CO_DEAD ∧
    ring (stateAt 3 10 trace_main).mem 1 [2, 3] ∧
    (stateAt 3 11 trace_main).trace = (stateAt 3 10 trace_main).trace ++ [Event.select 1] ∧
    (stateAt 3 11 trace_main).current = 1 ∧
    (stateAt 3 11 trace_main).pc = Cont.host Prog.ret :=
  ⟨rfl, rfl, rfl, rfl, rfl, rfl, ⟨⟨rfl, rfl, rfl, trivial⟩, by decide, by decide⟩,
    rfl, rfl, rfl, rfl, rfl, rfl, rfl, rfl, rfl, rfl,
    ⟨⟨rfl, rfl, rfl, trivial⟩, by decide, by decide⟩, rfl, rfl, rfl⟩

/-- C7: the concrete trace.  `main` (descriptor 1) creates A (2) and B (3),
whose entries emit a token, yield once and return, and yields three times.
The selections are A, B, `main`, A, B, `main`, `main`; the tokens are A's then
B's; A and B are selected twice each; after the second yield of `main` both are
Dead and in the ring; the third yield of `main` selects `main` and nothing
else happens in it; then `main` returns. -/
theorem concrete_trace (fuel : Nat) (hfuel : 3 ≤ fuel) :
    ((init zeroed trace_main).bind (exec fuel 11)).isSome = true ∧
    (stateAt fuel 2 trace_main).root = 1 ∧
    ((stateAt fuel 2 trace_main).mem 2).name = "A" ∧
    ((stateAt fuel 2 trace_main).mem 3).name = "B" ∧
    ((stateAt fuel 2 trace_main).mem 2).waiter = NULL ∧
    ((stateAt fuel 2 trace_main).mem 3).waiter = NULL ∧
    ring (stateAt fuel 2 trace_main).mem 1 [2, 3] ∧
    selected (stateAt fuel 11 trace_main).trace = [2, 3, 1, 2, 3, 1, 1] ∧
    tokens (stateAt fuel 11 trace_main).trace = [10, 20] ∧
    (stateAt fuel 11 trace_main).trace =
      [Event.select 2, Event.enter 2, Event.token 10, Event.select 3, Event.enter 3,
        Event.token 20, Event.select 1, Event.select 2, Event.dead 2, Event.select 3,
        Event.dead 3, Event.select 1, Event.select 1] ∧
    (selected (stateAt fuel 11 trace_main).trace).count 2 = 2 ∧
    (selected (stateAt fuel 11 trace_main).trace).count 3 = 2 ∧
    (stateAt fuel 10 trace_main).current = 1 ∧
    (stateAt fuel 10 trace_main).pc = Cont.host (Prog.yield Prog.ret) ∧
    selected (stateAt fuel 10 trace_main).trace = [2, 3, 1, 2, 3, 1] ∧
    ((stateAt fuel 10 trace_main).mem 2).status = CO_DEAD ∧
    ((stateAt fuel 10 trace_main).mem 3).status = CO_DEAD ∧
    ring (stateAt fuel 10 trace_main).mem 1 [2, 3] ∧
    (stateAt fuel 11 trace_main).trace
      = (stateAt fuel 10 trace_main).trace ++ [Event.select 1] ∧
    (stateAt fuel 11 trace_main).current = 1 ∧
    (stateAt fuel 11 trace_main).pc = Cont.host Prog.ret ∧
    step fuel (stateAt fuel 11 trace_main) = none := by
  have e0 := run_mono 3 fuel 11 trace_main hfuel rfl
  have e2 := stateAt_mono 3 fuel 2 trace_main hfuel rfl
  have e10 := stateAt_mono 3 fuel 10 trace_main hfuel rfl
  have e11 := stateAt_mono 3 fuel 11 trace_main hfuel rfl
  rw [e0, e2, e10, e11]
  obtain ⟨h1, h2, h3, h4, h5, h6, h7, h8, h9, h10, h11, h12, h13, h14, h15, h16, h17, h18,
    h19, h20, h21⟩ := trace_main_run
  exact ⟨h1, h2, h3, h4, h5, h6, h7, h8, h9, h10, h11, h12, h13, h14, h15, h16, h17, h18,
    h19, h20, h21, rfl⟩

/-- Witness of C7: the concrete trace run with fuel 4. -/
theorem concrete_trace_witness :
    3 ≤ 4 ∧ selected (stateAt 4 11 trace_main).trace = [2, 3, 1, 2, 3, 1, 1] ∧
      tokens (stateAt 4 11 trace_main).trace = [10, 20] :=
  ⟨by decide, (concrete_trace 4 (by decide)).2.2.2.2.2.2.2.1,
    (concrete_trace 4 (by decide)).2.2.2.2.2.2.2.2.1⟩

/-- The transitive wait, run with fuel 3. -/
theorem transitive_main_run :
    ((init zeroed transitive_main).bind (exec 3 8)).isSome = true ∧
    (stateAt 3 8 transitive_main).root = 1 ∧
    ((stateAt 3 2 transitive_main).mem 2).name = "A" ∧
    ((stateAt 3 4 transitive_main).mem 3).name = "B" ∧
    milestones (stateAt 3 8 transitive_main).trace =
      [Event.enter 2, Event.enter 3, Event.dead 3, Event.wait_return 2 3, Event.dead 2,
        Event.wait_return 1 2] ∧
    (stateAt 3 8 transitive_main).trace =
      [Event.select 2, Event.enter 2, Event.select 3, Event.enter 3, Event.dead 3,
        Event.wait_return 2 3, Event.dead 2, Event.wait_return 1 2] ∧
    (stateAt 3 8 transitive_main).current = 1 ∧
    (stateAt 3 8 transitive_main).pc = Cont.host Prog.ret ∧
    (stateAt 3 8 transitive_main).freed = [3, 2] ∧
    ring (stateAt 3 8 transitive_main).mem 1 [] ∧
    ((stateAt 3 8 transitive_main).mem 1).status = CO_RUNNING ∧
    ((stateAt 3 8 transitive_main).mem 2).status = CO_DEAD ∧
    ((stateAt 3 8 transitive_main).mem 3).status = CO_DEAD :=
  ⟨rfl, rfl, rfl, rfl, rfl, rfl, rfl, rfl, rfl, ⟨⟨rfl, trivial⟩, by decide, by decide⟩,
    rfl, rfl, rfl⟩

/-- C9: the transitive wait.  `main` (1) creates A (2) and waits for it; A
creates B (3), waits for it and returns; B returns.  The events are, in order:
A starts, B starts, B becomes Dead, A's wait returns, A becomes Dead, the wait
of `main` returns; at the end `main` is about to return, B then A have been
freed, and the ring is `main` alone, Running. -/
theorem transitive_wait (fuel : Nat) (hfuel : 3 ≤ fuel) :
    ((init zeroed transitive_main).bind (exec fuel 8)).isSome = true ∧
    (stateAt fuel 8 transitive_main).root = 1 ∧
    ((stateAt fuel 2 transitive_main).mem 2).name = "A" ∧
    ((stateAt fuel 4 transitive_main).mem 3).name = "B" ∧
    milestones (stateAt fuel 8 transitive_main).trace =
      [Event.enter 2, Event.enter 3, Event.dead 3, Event.wait_return 2 3, Event.dead 2,
        Event.wait_return 1 2] ∧
    (stateAt fuel 8 transitive_main).trace =
      [Event.select 2, Event.enter 2, Event.select 3, Event.enter 3, Event.dead 3,
        Event.wait_return 2 3, Event.dead 2, Event.wait_return 1 2] ∧
    (stateAt fuel 8 transitive_main).current = 1 ∧
    (stateAt fuel 8 transitive_main).pc = Cont.host Prog.ret ∧
    (stateAt fuel 8 transitive_main).freed = [3, 2] ∧
    ring (stateAt fuel 8 transitive_main).mem 1 [] ∧
    ((stateAt fuel 8 transitive_main).mem 1).status = CO_RUNNING ∧
    ((stateAt fuel 8 transitive_main).mem 2).status = CO_DEAD ∧
    ((stateAt fuel 8 transitive_main).mem 3).status = CO_DEAD ∧
    step fuel (stateAt fuel 8 transitive_main) = none := by
  have e0 := run_mono 3 fuel 8 transitive_main hfuel rfl
  have e2 := stateAt_mono 3 fuel 2 transitive_main hfuel rfl
  have e4 := stateAt_mono 3 fuel 4 transitive_main hfuel rfl
  have e8 := stateAt_mono 3 fuel 8 transitive_main hfuel rfl
  rw [e0, e2, e4, e8]
  obtain ⟨h1, h2, h3, h4, h5, h6, h7, h8, h9, h10, h11, h12, h13⟩ := transitive_main_run
  exact ⟨h1, h2, h3, h4, h5, h6, h7, h8, h9, h10, h11, h12, h13, rfl⟩

/-- Witness of C9: the transitive wait run with fuel 4. -/
theorem transitive_wait_witness :
    3 ≤ 4 ∧ milestones (stateAt 4 8 transitive_main).trace =
      [Event.enter 2, Event.enter 3, Event.dead 3, Event.wait_return 2 3, Event.dead 2,
        Event.wait_return 1 2] :=
  ⟨by decide, (transitive_wait 4 (by decide)).2.2.2.2.1⟩

/-! ## Initialisation, teardown and the yield that selects its caller -/

/-- C14: after `co_constructor` has run on a process with no current coroutine,
current is the root descriptor (the block `p` returned by `malloc`), its status
is Running, its successor in the ring is itself (a ring of length one), and
its waiter is `NULL`. -/
theorem co_constructor_root (s : State) (p : Addr) (h0 : s.current = NULL)
    (hp : p ≠ NULL) :
    ∃ s', co_constructor s p = some s' ∧ s'.current = p ∧ s'.root = s'.current ∧
      (s'.mem s'.current).status = CO_RUNNING ∧ (s'.mem s'.current).next = s'.current ∧
      (s'.mem s'.current).waiter = NULL ∧ (s'.mem s'.current).name = "main" ∧
      ring s'.mem s'.current [] := by
  have h0' : ¬ s.current ≠ NULL := by simpa using h0
  have hres : co_constructor s p = some { s with
      mem := s.mem.modify p
        (fun d => { d with status := CO_RUNNING, waiter := NULL, name := "main", next := p })
      current := p
      root := p } := by
    simp only [co_constructor, if_neg h0', if_neg hp]
  refine ⟨_, hres, rfl, rfl, ?_, ?_, ?_, ?_, ?_⟩
  · simp [Mem.modify]
  · simp [Mem.modify]
  · simp [Mem.modify]
  · simp [Mem.modify]
  · refine ⟨⟨?_, trivial⟩, by simp, ?_⟩
    · simp [Mem.modify]
    · simp only [List.mem_singleton]
      exact fun h => hp h.symm

/-- Witness of C14: the start of a process, whatever its memory holds. -/
theorem co_constructor_root_witness :
    (malloc (boot recycled trace_main)).2.current = NULL ∧
    (malloc (boot recycled trace_main)).1 ≠ NULL ∧
    ∃ s', init recycled trace_main = some s' ∧ s'.current = 1 ∧ s'.root = s'.current ∧
      (s'.mem s'.current).status = CO_RUNNING ∧ (s'.mem s'.current).next = s'.current ∧
      (s'.mem s'.current).waiter = NULL ∧ (s'.mem s'.current).name = "main" ∧
      ring s'.mem s'.current [] :=
  ⟨rfl, by decide,
    co_constructor_root (malloc (boot recycled trace_main)).2
      (malloc (boot recycled trace_main)).1 rfl (by decide)⟩

/-- C15: in a well-formed ring whose caller is Running while every other
descriptor is Dead or Waiting, `co_yield` selects the caller and returns to it
(the running code is the saved point `k`): current, every status, every waiter
and every link are unchanged, the only event is the selection of the caller,
and no entry function is started. -/
theorem co_yield_selects_caller (fuel : Nat) (s : State) (k : Cont) (rest : List Addr)
    (hring : ring s.mem s.current rest)
    (hrun : (s.mem s.current).status = CO_RUNNING)
    (hall : ∀ x ∈ rest, (s.mem x).status = CO_DEAD ∨ (s.mem x).status = CO_WAITING)
    (hfuel : rest.length < fuel) :
    ∃ s', co_yield fuel s k = some s' ∧ s'.current = s.current ∧ s'.pc = k ∧
      (∀ x, (s'.mem x).status = (s.mem x).status ∧ (s'.mem x).waiter = (s.mem x).waiter ∧
        (s'.mem x).next = (s.mem x).next ∧ (s'.mem x).func = (s.mem x).func ∧
        (s'.mem x).arg = (s.mem x).arg) ∧
      s'.trace = s.trace ++ [Event.select s.current] ∧
      s'.root = s.root ∧ s'.brk = s.brk ∧ s'.freed = s.freed := by
  have hcur : s.current ≠ NULL := fun h => hring.2.2 (by rw [h]; simp)
  have hsel : skipped (s.mem s.current).status = false := by rw [hrun]; rfl
  have hscan : scan (s.mem.modify s.current (fun d => { d with context := k })) fuel
      s.current = some s.current := by
    rw [scan_congr s.mem _ (modify_context s.mem s.current k)]
    exact scan_linked s.mem s.current hsel rest s.current fuel hring.1
      (fun x hx => (skipped_iff _).2 (hall x hx)) hfuel
  have hst := (modify_context s.mem s.current k s.current).2
  have hnew : ((s.mem.modify s.current (fun d => { d with context := k })) s.current).status
      ≠ CO_NEW := by
    rw [hst, hrun]; decide
  refine ⟨_, co_yield_resume fuel s k s.current hcur hscan hnew, rfl, ?_, ?_, rfl, rfl, rfl,
    rfl⟩
  · show ((s.mem.modify s.current (fun d => { d with context := k })) s.current).context = k
    simp [Mem.modify]
  · intro x
    show ((s.mem.modify s.current (fun d => { d with context := k })) x).status = _ ∧ _
    by_cases hx : x = s.current
    · subst hx; simp [Mem.modify]
    · simp [Mem.modify, hx]

/-- The ring of the concrete trace before the third `co_yield` of `main`. -/
theorem trace_main_ring_10 :
    ring (stateAt 3 10 trace_main).mem (stateAt 3 10 trace_main).current [2, 3] :=
  show ring (stateAt 3 10 trace_main).mem 1 [2, 3] from
    ⟨⟨rfl, rfl, rfl, trivial⟩, by decide, by decide⟩

/-- The ring of the concrete trace when `main` returns. -/
theorem trace_main_ring_11 :
    ring (stateAt 3 11 trace_main).mem (stateAt 3 11 trace_main).current [2, 3] :=
  show ring (stateAt 3 11 trace_main).mem 1 [2, 3] from
    ⟨⟨rfl, rfl, rfl, trivial⟩, by decide, by decide⟩

/-- Witness of C15: the third `co_yield` of `main` in the concrete trace. -/
theorem co_yield_selects_caller_witness :
    ring (stateAt 3 10 trace_main).mem (stateAt 3 10 trace_main).current [2, 3] ∧
    ∃ s', co_yield 3 (stateAt 3 10 trace_main) (Cont.host Prog.ret) = some s' ∧
      s'.current = (stateAt 3 10 trace_main).current ∧ s'.pc = Cont.host Prog.ret ∧
      (∀ x, (s'.mem x).status = ((stateAt 3 10 trace_main).mem x).status ∧
        (s'.mem x).waiter = ((stateAt 3 10 trace_main).mem x).waiter ∧
        (s'.mem x).next = ((stateAt 3 10 trace_main).mem x).next ∧
        (s'.mem x).func = ((stateAt 3 10 trace_main).mem x).func ∧
        (s'.mem x).arg = ((stateAt 3 10 trace_main).mem x).arg) ∧
      s'.trace = (stateAt 3 10 trace_main).trace ++
        [Event.select (stateAt 3 10 trace_main).current] ∧
      s'.root = (stateAt 3 10 trace_main).root ∧ s'.brk = (stateAt 3 10 trace_main).brk ∧
      s'.freed = (stateAt 3 10 trace_main).freed :=
  ⟨trace_main_ring_10,
    co_yield_selects_caller 3 (stateAt 3 10 trace_main) (Cont.host Prog.ret) [2, 3]
      trace_main_ring_10 rfl
      (fun x hx => by
        rcases List.mem_cons.1 hx with rfl | hx
        · exact Or.inl rfl
        · rcases List.mem_cons.1 hx with rfl | hx
          · exact Or.inl rfl
          · cases hx)
      (by decide)⟩

/-- The loop of `co_destructor` started at `a` frees `a` and the descriptors
after it, up to the one whose `next` is `NULL`. -/
theorem release_all_spec (m : Mem) :
    ∀ (l : List Addr) (a : Addr) (fuel : Nat), linked m (a :: l ++ [NULL]) →
      NULL ∉ a :: l → l.length + 1 < fuel → release_all m fuel a = some (a :: l)
  | [], a, fuel + 2, hl, hn, _ => by
    simp only [List.cons_append, List.nil_append, linked_cons_cons] at hl
    have ha : a ≠ NULL := fun h => hn (by simp [h])
    simp [release_all, ha, hl.1]
  | b :: l, a, fuel + 1, hl, hn, hf => by
    simp only [List.cons_append, linked_cons_cons] at hl
    have ha : a ≠ NULL := fun h => hn (by simp [h])
    have ih := release_all_spec m l b fuel (by simpa using hl.2)
      (fun h => hn (List.mem_cons_of_mem _ h)) (by simpa using hf)
    simp [release_all, ha, hl.1, ih]

/-- C13: on a well-formed ring of `n` descriptors, `co_destructor` terminates
(fuel beyond `n` suffices) and frees every descriptor of the ring exactly once,
whatever their statuses: the blocks it frees are the successors of current in
ring order followed by current, a sequence without duplicates that is a
permutation of the ring. -/
theorem co_destructor_frees_ring (fuel : Nat) (s : State) (rest : List Addr)
    (hring : ring s.mem s.current rest) (hfuel : rest.length + 1 < fuel) :
    ∃ s', co_destructor fuel s = some s' ∧
      s'.freed = s.freed ++ (rest ++ [s.current]) ∧
      (rest ++ [s.current]).Nodup ∧
      (rest ++ [s.current]).Perm (s.current :: rest) ∧
      ∀ x, x ∈ rest ++ [s.current] ↔ x ∈ s.current :: rest := by
  obtain ⟨hl, hnd, hnull⟩ := hring
  have hcur : s.current ≠ NULL := fun h => hnull (by rw [h]; simp)
  have hperm : (rest ++ [s.current]).Perm (s.current :: rest) := by
    exact (List.perm_append_comm : (rest ++ [s.current]).Perm ([s.current] ++ rest))
  have hnd' : (rest ++ [s.current]).Nodup := hperm.nodup_iff.2 hnd
  have hmem : ∀ x, x ∈ rest ++ [s.current] ↔ x ∈ s.current :: rest := fun x => hperm.mem_iff
  cases rest with
  | nil =>
    simp only [List.cons_append, List.nil_append, linked_cons_cons] at hl
    have h1 : s.current = (s.mem s.current).next := hl.1.symm
    refine ⟨{ s with freed := s.freed ++ [s.current] }, ?_, rfl, hnd', hperm, hmem⟩
    simp only [co_destructor, if_neg hcur]
    rw [if_pos h1]
  | cons r rs =>
    simp only [List.cons_append, linked_cons_cons] at hl
    have hrc : r ≠ s.current := by
      intro h
      exact (List.nodup_cons.1 hnd).1 (by simp [h])
    have hcr : s.current ∉ r :: rs := (List.nodup_cons.1 hnd).1
    have hl1 : linked (s.mem.modify s.current (fun d => { d with next := NULL }))
        ((r :: rs) ++ s.current :: [NULL]) := by
      rw [linked_split]
      constructor
      · apply linked_congr s.mem _ s.current (r :: rs) _ (by simpa using hl.2)
        intro x hx
        rw [modify_other _ _ _ _ (fun e => hcr (by rw [← e]; exact hx))]
      · exact ⟨by simp [Mem.modify], trivial⟩
    have hrel := release_all_spec (s.mem.modify s.current (fun d => { d with next := NULL }))
      (rs ++ [s.current]) r fuel (by simpa using hl1)
      (by
        intro h
        apply hnull
        simp only [List.mem_cons, List.mem_append, List.mem_singleton] at h ⊢
        tauto)
      (by simp at hfuel ⊢; omega)
    refine ⟨{ s with
        mem := s.mem.modify s.current (fun d => { d with next := NULL })
        current := NULL
        freed := s.freed ++ (r :: rs ++ [s.current]) }, ?_, rfl, hnd', hperm, hmem⟩
    have hne : ¬ s.current = r := fun h => hrc h.symm
    simp only [co_destructor, if_neg hcur, hl.1, hrel]
    rw [if_neg hne]
    rfl

/-- Witness of C13: the teardown at the end of the concrete trace, where A and
B are Dead and were never waited for. -/
theorem co_destructor_frees_ring_witness :
    ring (stateAt 3 11 trace_main).mem (stateAt 3 11 trace_main).current [2, 3] ∧
    ((stateAt 3 11 trace_main).mem 2).status = CO_DEAD ∧
    ((stateAt 3 11 trace_main).mem 2).waiter = NULL ∧
    ∃ s', co_destructor 4 (stateAt 3 11 trace_main) = some s' ∧
      s'.freed = (stateAt 3 11 trace_main).freed ++
        ([2, 3] ++ [(stateAt 3 11 trace_main).current]) ∧
      ([2, 3] ++ [(stateAt 3 11 trace_main).current]).Nodup ∧
      ([2, 3] ++ [(stateAt 3 11 trace_main).current]).Perm
        ((stateAt 3 11 trace_main).current :: [2, 3]) ∧
      ∀ x, x ∈ [2, 3] ++ [(stateAt 3 11 trace_main).current] ↔
        x ∈ (stateAt 3 11 trace_main).current :: [2, 3] :=
  ⟨trace_main_ring_11, rfl, rfl,
    co_destructor_frees_ring 4 (stateAt 3 11 trace_main) [2, 3] trace_main_ring_11
      (by decide)⟩

/-! ## Creation order and waiting for a finished coroutine -/

/-- C16: on a well-formed ring `co_start` links the new descriptor so that its
successor is current: the old ring predecessor `h` of current gets the new
descriptor as successor, every other link, every status and current are
unchanged, so the new descriptor is the last of the ring in a forward walk from
current; a second creation by the same caller comes after the first one. -/
theorem co_start_links_before_current (fuel : Nat) (s : State) (start : Addr)
    (name : String) (func : Nat → Prog) (arg : Nat) (rest : List Addr)
    (hring : ring s.mem s.current rest) (hfresh : start ∉ s.current :: rest)
    (hnn : start ≠ NULL) (hfuel : rest.length < fuel) :
    ∃ s' q h,
      co_start fuel s start name func arg = some s' ∧
      s.current :: rest = q ++ [h] ∧
      (s'.mem start).next = s.current ∧ (s'.mem h).next = start ∧
      (∀ x, x ≠ h → x ≠ start → (s'.mem x).next = (s.mem x).next) ∧
      (∀ x, x ≠ start → (s'.mem x).status = (s.mem x).status) ∧
      s'.current = s.current ∧
      ring s'.mem s'.current (rest ++ [start]) ∧
      ∀ (start2 : Addr) (name2 : String) (func2 : Nat → Prog) (arg2 : Nat),
        start2 ∉ s.current :: (rest ++ [start]) → start2 ≠ NULL → rest.length + 1 < fuel →
        ∃ s'', co_start fuel s' start2 name2 func2 arg2 = some s'' ∧
          s''.current = s.current ∧
          ring s''.mem s''.current (rest ++ [start, start2]) := by
  obtain ⟨s', q, h, hres, hq, hcur, -, -, -, -, -, hh, hs, hring3, hothers, hstatus, -⟩ :=
    co_start_spec fuel s start name func arg rest hring hfresh hnn hfuel
  refine ⟨s', q, h, hres, hq, hs, hh, hothers, hstatus, hcur, by rw [hcur]; exact hring3, ?_⟩
  intro start2 name2 func2 arg2 hfresh2 hnn2 hfuel2
  have hring3' : ring s'.mem s'.current (rest ++ [start]) := by rw [hcur]; exact hring3
  obtain ⟨s'', -, -, hres2, -, hcur2, -, -, -, -, -, -, -, hring4, -⟩ :=
    co_start_spec fuel s' start2 name2 func2 arg2 (rest ++ [start]) hring3'
      (by rw [hcur]; exact hfresh2) hnn2 (by simpa using hfuel2)
  refine ⟨s'', hres2, hcur2.trans hcur, ?_⟩
  rw [hcur2]
  simpa using hring4

/-- Witness of C16: the `co_start` of B by `main` in the ring `main`, A of the
concrete trace. -/
theorem co_start_links_before_current_witness :
    ring (stateAt 3 1 trace_main).mem (stateAt 3 1 trace_main).current [2] ∧
    ∃ s' q h,
      co_start 3 (stateAt 3 1 trace_main) 3 "B" (token_entry 20) 0 = some s' ∧
      (stateAt 3 1 trace_main).current :: [2] = q ++ [h] ∧
      (s'.mem 3).next = (stateAt 3 1 trace_main).current ∧ (s'.mem h).next = 3 ∧
      (∀ x, x ≠ h → x ≠ 3 → (s'.mem x).next = ((stateAt 3 1 trace_main).mem x).next) ∧
      (∀ x, x ≠ 3 → (s'.mem x).status = ((stateAt 3 1 trace_main).mem x).status) ∧
      s'.current = (stateAt 3 1 trace_main).current ∧
      ring s'.mem s'.current ([2] ++ [3]) ∧
      ∀ (start2 : Addr) (name2 : String) (func2 : Nat → Prog) (arg2 : Nat),
        start2 ∉ (stateAt 3 1 trace_main).current :: ([2] ++ [3]) → start2 ≠ NULL →
        [2].length + 1 < 3 →
        ∃ s'', co_start 3 s' start2 name2 func2 arg2 = some s'' ∧
          s''.current = (stateAt 3 1 trace_main).current ∧
          ring s''.mem s''.current ([2] ++ [3, start2]) :=
  ⟨⟨⟨rfl, rfl, trivial⟩, by decide, by decide⟩,
    co_start_links_before_current 3 (stateAt 3 1 trace_main) 3 "B" (token_entry 20) 0 [2]
      ⟨⟨rfl, rfl, trivial⟩, by decide, by decide⟩ (by decide) (by decide) (by decide)⟩

/-- Writing the `status` field changes no other field, and no status elsewhere. -/
theorem modify_status (m : Mem) (a : Addr) (st : co_status) (x : Addr) :
    ((m.modify a (fun d => { d with status := st })) x).next = (m x).next ∧
    ((m.modify a (fun d => { d with status := st })) x).waiter = (m x).waiter ∧
    ((m.modify a (fun d => { d with status := st })) x).context = (m x).context ∧
    (x ≠ a → ((m.modify a (fun d => { d with status := st })) x).status = (m x).status) ∧
    ((m.modify a (fun d => { d with status := st })) a).status = st := by
  by_cases hx : x = a
  · subst hx; simp [Mem.modify]
  · simp [Mem.modify, hx]

/-- Writing the `waiter` field changes no other field, and no waiter elsewhere. -/
theorem modify_waiter (m : Mem) (a w x : Addr) :
    ((m.modify a (fun d => { d with waiter := w })) x).next = (m x).next ∧
    ((m.modify a (fun d => { d with waiter := w })) x).status = (m x).status ∧
    ((m.modify a (fun d => { d with waiter := w })) x).context = (m x).context ∧
    (x ≠ a → ((m.modify a (fun d => { d with waiter := w })) x).waiter = (m x).waiter) ∧
    ((m.modify a (fun d => { d with waiter := w })) a).waiter = w := by
  by_cases hx : x = a
  · subst hx; simp [Mem.modify]
  · simp [Mem.modify, hx]

/-- Lines 82-83 of `co_wait` change no link and no saved context, the status of
the caller only, and the waiter of the target only. -/
theorem co_wait_mark_frame (s : State) (co : Addr) (x : Addr) :
    ((co_wait_mark s co).mem x).next = (s.mem x).next ∧
    ((co_wait_mark s co).mem x).context = (s.mem x).context ∧
    (x ≠ s.current → ((co_wait_mark s co).mem x).status = (s.mem x).status) ∧
    (x ≠ co → ((co_wait_mark s co).mem x).waiter = (s.mem x).waiter) ∧
    ((co_wait_mark s co).mem co).waiter = s.current ∧
    ((co_wait_mark s co).mem s.current).status = CO_WAITING := by
  have e1 := modify_status s.mem s.current CO_WAITING
  have e2 := modify_waiter (s.mem.modify s.current (fun d => { d with status := CO_WAITING }))
    co s.current
  refine ⟨(e2 x).1.trans (e1 x).1, (e2 x).2.2.1.trans (e1 x).2.2.1,
    fun hx => (e2 x).2.1.trans ((e1 x).2.2.2.1 hx),
    fun hx => ((e2 x).2.2.2.1 hx).trans (e1 x).2.1, (e2 x).2.2.2.2,
    (e2 s.current).2.1.trans (e1 x).2.2.2.2⟩

/-- C18: in a well-formed ring, `co_wait` on a target that is already Dead and
is not the caller returns at once, without calling `co_yield`: the only event
is the return of the wait (no selection, no entry started, no context saved),
current is unchanged and its status is Running again, and the only change to
the ring is that the predecessor `h` of the target now has the successor of the
target as its successor. -/
theorem co_wait_dead_target (fuel : Nat) (s : State) (co : Addr) (k : Prog)
    (rest : List Addr) (hring : ring s.mem s.current rest) (hco : co ∈ rest)
    (hdead : (s.mem co).status = CO_DEAD) (hfuel : rest.length ≤ fuel) :
    ∃ s' pre post h,
      co_wait fuel s co k = some s' ∧ s'.pc = Cont.host k ∧
      s'.current = s.current ∧
      s'.trace = s.trace ++ [Event.wait_return s.current co] ∧
      selected s'.trace = selected s.trace ∧
      (∀ x, (s'.mem x).context = (s.mem x).context) ∧
      (s'.mem s'.current).status = CO_RUNNING ∧
      (∀ x, x ≠ s.current → (s'.mem x).status = (s.mem x).status) ∧
      rest = pre ++ co :: post ∧ ring s'.mem s'.current (pre ++ post) ∧
      h ∈ s.current :: pre ∧ (s.mem h).next = co ∧ (s'.mem h).next = (s.mem co).next ∧
      (∀ x, x ≠ h → (s'.mem x).next = (s.mem x).next) ∧
      s'.freed = s.freed ++ [co] := by
  have hcur : s.current ≠ NULL := fun h => hring.2.2 (by rw [h]; simp)
  have hcc : co ≠ s.current := by
    intro e
    exact (List.nodup_cons.1 hring.2.1).1 (e ▸ hco)
  have hring1 : ring (co_wait_mark s co).mem (co_wait_mark s co).current rest :=
    ring_congr s.mem _ s.current rest (fun x => (co_wait_mark_frame s co x).1) hring
  have hdead1 : ((co_wait_mark s co).mem co).status = CO_DEAD := by
    rw [(co_wait_mark_frame s co co).2.2.1 hcc]; exact hdead
  obtain ⟨s', pre, post, h, hres, hpc, hcur', -, -, hfreed, htrace, hrest, hring2, -, hh, hnh,
    hnh', hnext, hst, hstatus, hwc⟩ :=
    co_wait_exit_spec fuel (co_wait_mark s co) co k rest hring1 hco hfuel
  have hcall : co_wait fuel s co k = some s' := by
    simp only [co_wait, if_neg hcur, co_wait_loop, hdead1, ne_eq, not_true_eq_false, if_false]
    exact hres
  have hcur'' : s'.current = s.current := hcur'
  have htrace' : s'.trace = s.trace ++ [Event.wait_return s.current co] := htrace
  refine ⟨s', pre, post, h, hcall, hpc, hcur'', htrace', ?_, ?_, ?_, ?_, hrest, ?_, hh, ?_, ?_,
    ?_, hfreed⟩
  · rw [htrace']
    generalize s.trace = t
    induction t with
    | nil => rfl
    | cons e t ih => cases e <;> simpa [selected] using ih
  · intro x
    rw [(hwc x).2, (co_wait_mark_frame s co x).2.1]
  · rw [hcur'']; exact hst
  · intro x hx
    have := hstatus x hx
    rw [this, (co_wait_mark_frame s co x).2.2.1 hx]
  · rw [hcur'']; exact hring2
  · rw [← (co_wait_mark_frame s co h).1]; exact hnh
  · rw [hnh', (co_wait_mark_frame s co co).1]
  · intro x hx
    rw [hnext x hx, (co_wait_mark_frame s co x).1]

/-- The ring of the transitive wait when B has returned and A resumes. -/
theorem transitive_main_ring_5 :
    ring (stateAt 3 5 transitive_main).mem (stateAt 3 5 transitive_main).current [1, 3] :=
  show ring (stateAt 3 5 transitive_main).mem 2 [1, 3] from
    ⟨⟨rfl, rfl, rfl, trivial⟩, by decide, by decide⟩

/-- Witness of C18: in the transitive wait, a `co_wait(B)` called by A once B
is Dead. -/
theorem co_wait_dead_target_witness :
    ring (stateAt 3 5 transitive_main).mem (stateAt 3 5 transitive_main).current [1, 3] ∧
    ((stateAt 3 5 transitive_main).mem 3).status = CO_DEAD ∧
    ∃ s' pre post h,
      co_wait 3 (stateAt 3 5 transitive_main) 3 Prog.ret = some s' ∧
      s'.pc = Cont.host Prog.ret ∧
      s'.current = (stateAt 3 5 transitive_main).current ∧
      s'.trace = (stateAt 3 5 transitive_main).trace ++
        [Event.wait_return (stateAt 3 5 transitive_main).current 3] ∧
      selected s'.trace = selected (stateAt 3 5 transitive_main).trace ∧
      (∀ x, (s'.mem x).context = ((stateAt 3 5 transitive_main).mem x).context) ∧
      (s'.mem s'.current).status = CO_RUNNING ∧
      (∀ x, x ≠ (stateAt 3 5 transitive_main).current →
        (s'.mem x).status = ((stateAt 3 5 transitive_main).mem x).status) ∧
      [1, 3] = pre ++ 3 :: post ∧ ring s'.mem s'.current (pre ++ post) ∧
      h ∈ (stateAt 3 5 transitive_main).current :: pre ∧
      ((stateAt 3 5 transitive_main).mem h).next = 3 ∧
      (s'.mem h).next = ((stateAt 3 5 transitive_main).mem 3).next ∧
      (∀ x, x ≠ h → (s'.mem x).next = ((stateAt 3 5 transitive_main).mem x).next) ∧
      s'.freed = (stateAt 3 5 transitive_main).freed ++ [3] :=
  ⟨transitive_main_ring_5, rfl,
    co_wait_dead_target 3 (stateAt 3 5 transitive_main) 3 Prog.ret [1, 3]
      transitive_main_ring_5 (by decide) rfl (by decide)⟩

/-! ## What each operation changes -/

/-- What a successful `co_yield` does: the scan selects `sel`, which becomes
current; no link and no waiter changes; only the context of the caller is
written; the only status that may change is that of `sel`, from New to Running,
in which case its entry function is started, and otherwise the saved context of
`sel` is resumed. -/
theorem co_yield_inv (fuel : Nat) (s s' : State) (k : Cont)
    (h : co_yield fuel s k = some s') :
    ∃ sel, scan s.mem fuel s.current = some sel ∧ s.current ≠ NULL ∧ s'.current = sel ∧
      s'.root = s.root ∧ s'.brk = s.brk ∧ s'.freed = s.freed ∧
      (∀ x, (s'.mem x).next = (s.mem x).next ∧ (s'.mem x).waiter = (s.mem x).waiter) ∧
      (∀ x, x ≠ s.current → (s'.mem x).context = (s.mem x).context) ∧
      (s'.mem s.current).context = k ∧
      (((s.mem sel).status = CO_NEW ∧ (s'.mem sel).status = CO_RUNNING ∧
          (∀ x, x ≠ sel → (s'.mem x).status = (s.mem x).status) ∧
          s'.pc = Cont.host ((s.mem sel).func (s.mem sel).arg) ∧
          s'.trace = s.trace ++ [Event.select sel, Event.enter sel]) ∨
        ((s.mem sel).status ≠ CO_NEW ∧ (∀ x, (s'.mem x).status = (s.mem x).status) ∧
          s'.pc = (s'.mem sel).context ∧ s'.trace = s.trace ++ [Event.select sel])) := by
  by_cases hcur : s.current = NULL
  · simp [co_yield, hcur] at h
  · have hc : ∀ x, ((s.mem.modify s.current (fun d => { d with context := k })) x).next
          = (s.mem x).next ∧
        ((s.mem.modify s.current (fun d => { d with context := k })) x).status
          = (s.mem x).status ∧
        ((s.mem.modify s.current (fun d => { d with context := k })) x).waiter
          = (s.mem x).waiter ∧
        ((s.mem.modify s.current (fun d => { d with context := k })) x).func
          = (s.mem x).func ∧
        ((s.mem.modify s.current (fun d => { d with context := k })) x).arg
          = (s.mem x).arg ∧
        (x ≠ s.current →
          ((s.mem.modify s.current (fun d => { d with context := k })) x).context
            = (s.mem x).context) := by
      intro x
      by_cases hx : x = s.current
      · subst hx; simp [Mem.modify]
      · simp [Mem.modify, hx]
    have hck : ((s.mem.modify s.current (fun d => { d with context := k })) s.current).context
        = k := by simp [Mem.modify]
    cases hscan : scan (s.mem.modify s.current (fun d => { d with context := k })) fuel
        s.current with
    | none => simp [co_yield, hcur, hscan] at h
    | some sel =>
      have hscan0 : scan s.mem fuel s.current = some sel := by
        rw [← scan_congr s.mem _ (modify_context s.mem s.current k)]; exact hscan
      generalize hm1 : s.mem.modify s.current (fun d => { d with context := k }) = m1
        at hc hck hscan
      by_cases hn : (m1 sel).status = CO_NEW
      · have hres := co_yield_new fuel s k sel hcur (by rw [hm1]; exact hscan)
          (by rw [hm1]; exact hn)
        rw [hres, hm1] at h
        cases h
        have hs := modify_status m1 sel CO_RUNNING
        refine ⟨sel, hscan0, hcur, rfl, rfl, rfl, rfl, ?_, ?_, ?_, Or.inl ⟨?_, ?_, ?_, ?_, rfl⟩⟩
        · intro x
          exact ⟨(hs x).1.trans (hc x).1, (hs x).2.1.trans (hc x).2.2.1⟩
        · intro x hx
          exact (hs x).2.2.1.trans ((hc x).2.2.2.2.2 hx)
        · exact (hs s.current).2.2.1.trans hck
        · rw [← (hc sel).2.1]; exact hn
        · exact (hs sel).2.2.2.2
        · intro x hx
          exact ((hs x).2.2.2.1 hx).trans (hc x).2.1
        · show Cont.host ((m1 sel).func (m1 sel).arg) = _
          rw [(hc sel).2.2.2.1, (hc sel).2.2.2.2.1]
      · have hres := co_yield_resume fuel s k sel hcur (by rw [hm1]; exact hscan)
          (by rw [hm1]; exact hn)
        rw [hres, hm1] at h
        cases h
        refine ⟨sel, hscan0, hcur, rfl, rfl, rfl, rfl, ?_, ?_, hck, Or.inr ⟨?_, ?_, rfl, rfl⟩⟩
        · intro x
          exact ⟨(hc x).1, (hc x).2.2.1⟩
        · intro x hx
          exact (hc x).2.2.2.2.2 hx
        · rw [← (hc sel).2.1]; exact hn
        · intro x
          exact (hc x).2.1

/-- What a successful `co_start` changes besides links: the status, entry,
argument and name of the new block. -/
theorem co_start_inv (fuel : Nat) (s s' : State) (start : Addr) (name : String)
    (func : Nat → Prog) (arg : Nat) (h : co_start fuel s start name func arg = some s') :
    s.current ≠ NULL ∧ start ≠ NULL ∧ s'.current = s.current ∧ s'.pc = s.pc ∧
      s'.root = s.root ∧ s'.brk = s.brk ∧ s'.freed = s.freed ∧ s'.trace = s.trace ∧
      (∀ x, (s'.mem x).waiter = (s.mem x).waiter ∧ (s'.mem x).context = (s.mem x).context) ∧
      (∀ x, x ≠ start → (s'.mem x).status = (s.mem x).status) ∧
      (s'.mem start).status = CO_NEW := by
  by_cases hcur : s.current = NULL
  · simp [co_start, hcur] at h
  · by_cases hst : start = NULL
    · simp [co_start, hcur, hst] at h
    · have hf1 : ∀ x, ((s.mem.modify start (fun d =>
            { d with arg := arg, func := func, status := CO_NEW, name := name })) x).waiter
            = (s.mem x).waiter ∧
          ((s.mem.modify start (fun d =>
            { d with arg := arg, func := func, status := CO_NEW, name := name })) x).context
            = (s.mem x).context ∧
          (x ≠ start → ((s.mem.modify start (fun d =>
            { d with arg := arg, func := func, status := CO_NEW, name := name })) x).status
            = (s.mem x).status) ∧
          ((s.mem.modify start (fun d =>
            { d with arg := arg, func := func, status := CO_NEW, name := name })) start).status
            = CO_NEW := by
        intro x
        by_cases hx : x = start
        · subst hx; simp [Mem.modify]
        · simp [Mem.modify, hx]
      cases hf : find_prev (s.mem.modify start (fun d =>
          { d with arg := arg, func := func, status := CO_NEW, name := name }))
          s.current fuel s.current with
      | none => simp [co_start, hcur, hst, hf] at h
      | some p =>
        simp only [co_start, if_neg hcur, if_neg hst, hf] at h
        generalize hm1 : s.mem.modify start (fun d =>
          { d with arg := arg, func := func, status := CO_NEW, name := name }) = m1
          at hf1 h
        cases h
        have e1 := modify_next (m1.modify p (fun d => { d with next := start })) start
          s.current
        have e2 := modify_next m1 p start
        refine ⟨hcur, hst, rfl, rfl, rfl, rfl, rfl, rfl, ?_, ?_, ?_⟩
        · intro x
          exact ⟨((e1 x).2.1.trans (e2 x).2.1).trans (hf1 x).1,
            ((e1 x).2.2.1.trans (e2 x).2.2.1).trans (hf1 x).2.1⟩
        · intro x hx
          exact ((e1 x).1.trans (e2 x).1).trans ((hf1 x).2.2.1 hx)
        · exact ((e1 start).1.trans (e2 start).1).trans (hf1 start).2.2.2

/-- What a successful exit of the loop of `co_wait` changes besides links: the
status of the caller. -/
theorem co_wait_exit_inv (fuel : Nat) (s s' : State) (co : Addr) (k : Prog)
    (h : co_wait_exit fuel s co k = some s') :
    s'.current = s.current ∧ s'.pc = Cont.host k ∧ s'.root = s.root ∧ s'.brk = s.brk ∧
      s'.trace = s.trace ++ [Event.wait_return s.current co] ∧
      (∀ x, (s'.mem x).waiter = (s.mem x).waiter ∧ (s'.mem x).context = (s.mem x).context) ∧
      (∀ x, x ≠ s.current → (s'.mem x).status = (s.mem x).status) ∧
      (s'.mem s.current).status = CO_RUNNING := by
  cases hf : find_prev (s.mem.modify s.current (fun d => { d with status := CO_RUNNING }))
      co fuel s.current with
  | none => simp [co_wait_exit, hf] at h
  | some p =>
    simp only [co_wait_exit, hf] at h
    have e1 := modify_status s.mem s.current CO_RUNNING
    generalize hm1 : s.mem.modify s.current (fun d => { d with status := CO_RUNNING }) = m1
      at e1 h
    cases h
    have e2 := modify_next m1 p ((m1 (m1 p).next).next)
    refine ⟨rfl, rfl, rfl, rfl, rfl, ?_, ?_, ?_⟩
    · intro x
      exact ⟨(e2 x).2.1.trans (e1 x).2.1, (e2 x).2.2.1.trans (e1 x).2.2.1⟩
    · intro x hx
      exact (e2 x).1.trans ((e1 x).2.2.2.1 hx)
    · exact (e2 s.current).1.trans (e1 s.current).2.2.2.2

/-- A summary of `co_yield`: the only status it changes is that of a New
descriptor it selects; it changes no waiter; what it selects is not skipped. -/
theorem co_yield_frame (fuel : Nat) (t s' : State) (k : Cont)
    (h : co_yield fuel t k = some s') :
    (∀ x, (s'.mem x).status ≠ (t.mem x).status →
      (t.mem x).status = CO_NEW ∧ (s'.mem x).status = CO_RUNNING ∧ s'.current = x) ∧
    (∀ x, (s'.mem x).waiter = (t.mem x).waiter) ∧
    skipped (t.mem s'.current).status = false ∧
    (∃ new, s'.trace = t.trace ++ new ∧ ∀ a, Event.select a ∈ new → a = s'.current) ∧
    s'.root = t.root ∧ s'.brk = t.brk := by
  obtain ⟨sel, hscan, -, hcur, hroot, hbrk, -, hnw, -, -, hcase⟩ := co_yield_inv fuel t s' k h
  have hsk := (scan_some_not_skipped t.mem fuel t.current sel hscan).1
  refine ⟨?_, fun x => (hnw x).2, by rw [hcur]; exact hsk, ?_, hroot, hbrk⟩
  · intro x hx
    rcases hcase with ⟨h1, h2, h3, -, -⟩ | ⟨-, h3, -, -⟩
    · by_cases hxs : x = sel
      · subst hxs; exact ⟨h1, h2, hcur⟩
      · exact absurd (h3 x hxs) hx
    · exact absurd (h3 x) hx
  · rcases hcase with ⟨-, -, -, -, h4⟩ | ⟨-, -, -, h4⟩
    · refine ⟨_, h4, ?_⟩
      intro a ha
      simp only [List.mem_cons, Event.select.injEq, reduceCtorEq, List.mem_singleton,
        or_false, List.not_mem_nil] at ha
      rw [hcur]; exact ha
    · refine ⟨_, h4, ?_⟩
      intro a ha
      simp only [List.mem_singleton, Event.select.injEq] at ha
      rw [hcur]; exact ha

/-- What one step may change.  A status changes only at a New descriptor that
is selected and started, at the block handed out to `co_start`, or at current
(made Dead by the return of its entry function, Waiting or Running by
`co_wait`); a waiter changes only at the target of a `co_wait`, where it
becomes current; the new current is the old one, a descriptor that the scan
does not skip, or the waiter of a descriptor whose entry function returned. -/
theorem step_frame (fuel : Nat) (s s' : State) (h : step fuel s = some s') :
    (∀ x, (s'.mem x).status ≠ (s.mem x).status →
      ((s.mem x).status = CO_NEW ∧ (s'.mem x).status = CO_RUNNING ∧ s'.current = x) ∨
      (x = s.brk ∧ (s'.mem x).status = CO_NEW ∧
        ∃ n f a k, s.pc = Cont.host (Prog.start n f a k)) ∨
      (x = s.current ∧ s.pc = Cont.host Prog.ret ∧ (s'.mem x).status = CO_DEAD) ∨
      (x = s.current ∧ (∃ co k, s.pc = Cont.host (Prog.wait co k)) ∧
        ((s'.mem x).status = CO_WAITING ∨ (s'.mem x).status = CO_RUNNING)) ∨
      (x = s.current ∧ (∃ co k, s.pc = Cont.in_wait co k) ∧
        (s'.mem x).status = CO_RUNNING)) ∧
    (∀ x, (s'.mem x).waiter ≠ (s.mem x).waiter →
      (s'.mem x).waiter = s.current ∧ ∃ k, s.pc = Cont.host (Prog.wait x k)) ∧
    (∀ co k, s.pc = Cont.host (Prog.wait co k) → (s'.mem co).waiter = s.current) ∧
    (s'.current = s.current ∨ skipped (s.mem s'.current).status = false ∨
      (s.pc = Cont.host Prog.ret ∧ s'.current = (s.mem s.current).waiter)) ∧
    s.brk ≤ s'.brk ∧ s'.root = s.root ∧
    ∃ new, s'.trace = s.trace ++ new ∧ ∀ a, Event.select a ∈ new → a = s'.current := by
  unfold step at h
  split at h
  · -- the return of an entry function
    rename_i hpc
    by_cases hr : s.current = s.root
    · simp [hr] at h
    · rw [if_neg hr] at h
      have hd := modify_status s.mem s.current CO_DEAD
      by_cases hw : (s.mem s.current).waiter = NULL
      · rw [entry_return_no_waiter fuel s hw] at h
        obtain ⟨f1, f2, f3, ⟨new, f4, f5⟩, f6, f7⟩ := co_yield_frame fuel _ s' _ h
        have hne : s'.current ≠ s.current := by
          intro e
          rw [e] at f3
          have : skipped ((s.mem.modify s.current
            (fun d => { d with status := CO_DEAD })) s.current).status = false := f3
          rw [(hd s.current).2.2.2.2] at this
          exact absurd this (by decide)
        refine ⟨?_, ?_, ?_, ?_, by rw [f7], f6, Event.dead s.current :: new, ?_, ?_⟩
        · intro x hx
          by_cases hxc : x = s.current
          · right; right; left
            refine ⟨hxc, hpc, ?_⟩
            by_contra hnd
            have h1 := f1 x (by
              show (s'.mem x).status ≠ ((s.mem.modify s.current
                (fun d => { d with status := CO_DEAD })) x).status
              rw [hxc, (hd s.current).2.2.2.2]; rw [hxc] at hnd; exact hnd)
            exact hne (h1.2.2.trans hxc)
          · left
            have h1 := f1 x (by
              show (s'.mem x).status ≠ ((s.mem.modify s.current
                (fun d => { d with status := CO_DEAD })) x).status
              rw [(hd x).2.2.2.1 hxc]; exact hx)
            refine ⟨?_, h1.2.1, h1.2.2⟩
            rw [← (hd x).2.2.2.1 hxc]; exact h1.1
        · intro x hx
          exact absurd ((f2 x).trans (hd x).2.1) hx
        · intro co k e
          rw [hpc] at e; cases e
        · right; left
          have : skipped ((s.mem.modify s.current
            (fun d => { d with status := CO_DEAD })) s'.current).status = false := f3
          rw [(hd s'.current).2.2.2.1 hne] at this
          exact this
        · show s'.trace = s.trace ++ Event.dead s.current :: new
          rw [f4]
          show s.trace ++ [Event.dead s.current] ++ new = _
          simp
        · intro a ha
          rcases List.mem_cons.1 ha with e | ha
          · cases e
          · exact f5 a ha
      · rw [entry_return_waiter fuel s hw] at h
        cases h
        refine ⟨?_, ?_, ?_, Or.inr (Or.inr ⟨hpc, rfl⟩), le_refl _, rfl,
          [Event.dead s.current], rfl, by simp⟩
        · intro x hx
          by_cases hxc : x = s.current
          · right; right; left
            refine ⟨hxc, hpc, ?_⟩
            rw [hxc]; exact (hd s.current).2.2.2.2
          · exact absurd ((hd x).2.2.2.1 hxc) hx
        · intro x hx
          exact absurd (hd x).2.1 hx
        · intro co k e
          rw [hpc] at e; cases e
  · -- an output of the host
    rename_i t k hpc
    cases h
    refine ⟨fun x hx => absurd rfl hx, fun x hx => absurd rfl hx, ?_, Or.inl rfl, le_refl _,
      rfl, _, rfl, by simp⟩
    intro co k' e
    rw [hpc] at e; cases e
  · -- `co_yield` called by the host
    rename_i k hpc
    obtain ⟨f1, f2, f3, f4, f6, f7⟩ := co_yield_frame fuel s s' _ h
    refine ⟨fun x hx => Or.inl (f1 x hx), fun x hx => absurd (f2 x) hx, ?_,
      Or.inr (Or.inl f3), by rw [f7], f6, f4⟩
    intro co k' e
    rw [hpc] at e; cases e
  · -- `co_start`
    rename_i name func arg k hpc
    cases hc : co_start fuel (malloc s).2 (malloc s).1 name func arg with
    | none => simp [hc] at h
    | some s1 =>
      simp only [hc, Option.some.injEq] at h
      subst h
      obtain ⟨-, -, h3, -, h5, h6, -, h8, h9, h10, h11⟩ := co_start_inv fuel _ s1 _ _ _ _ hc
      refine ⟨?_, fun x hx => absurd (h9 x).1 hx, ?_, Or.inl h3, ?_, h5, [], ?_, by simp⟩
      · intro x hx
        by_cases hxs : x = s.brk
        · right; left
          exact ⟨hxs, by rw [hxs]; exact h11, name, func, arg, k, hpc⟩
        · exact absurd (h10 x hxs) hx
      · intro co k' e
        rw [hpc] at e; cases e
      · show s.brk ≤ s1.brk
        rw [h6]
        exact Nat.le_succ s.brk
      · show s1.trace = s.trace ++ []
        rw [h8]; simp [malloc]
  · -- `co_wait`
    rename_i co k hpc
    by_cases hcur : s.current = NULL
    · simp [co_wait, hcur] at h
    · simp only [co_wait, if_neg hcur] at h
      have hm := co_wait_mark_frame s co
      have hwt : ∀ x, (s'.mem x).waiter = ((co_wait_mark s co).mem x).waiter →
          ((s'.mem x).waiter ≠ (s.mem x).waiter →
            (s'.mem x).waiter = s.current ∧ ∃ k, s.pc = Cont.host (Prog.wait x k)) ∧
          (x = co → (s'.mem x).waiter = s.current) := by
        intro x e
        constructor
        · intro hx
          by_cases hxc : x = co
          · subst hxc
            exact ⟨e.trans (hm x).2.2.2.2.1, k, hpc⟩
          · exact absurd (e.trans ((hm x).2.2.2.1 hxc)) hx
        · intro hxc
          subst hxc
          exact e.trans (hm x).2.2.2.2.1
      by_cases hd : ((co_wait_mark s co).mem co).status = CO_DEAD
      · have h' : co_wait_exit fuel (co_wait_mark s co) co k = some s' := by
          simpa [co_wait_loop, hd] using h
        obtain ⟨g1, -, g3, g4, g5, g6, g7, g8⟩ := co_wait_exit_inv fuel _ s' co k h'
        refine ⟨?_, fun x hx => (hwt x (g6 x).1).1 hx, ?_, Or.inl g1, by rw [g4]; exact le_refl _,
          g3, _, g5, by simp⟩
        · intro x hx
          by_cases hxc : x = s.current
          · right; right; right; left
            exact ⟨hxc, ⟨co, k, hpc⟩, Or.inr (by rw [hxc]; exact g8)⟩
          · exact absurd ((g7 x hxc).trans ((hm x).2.2.1 hxc)) hx
        · intro co' k' e
          rw [hpc] at e; cases e
          exact (hwt co (g6 co).1).2 rfl
      · have h' : co_yield fuel (co_wait_mark s co) (Cont.in_wait co k) = some s' := by
          simpa [co_wait_loop, hd] using h
        obtain ⟨f1, f2, f3, f4, f6, f7⟩ := co_yield_frame fuel _ s' _ h'
        have hne : s'.current ≠ s.current := by
          intro e
          rw [e] at f3
          rw [(hm s.current).2.2.2.2.2] at f3
          exact absurd f3 (by decide)
        refine ⟨?_, fun x hx => (hwt x (f2 x)).1 hx, ?_, ?_, by rw [f7]; exact le_refl _,
          f6, f4⟩
        · intro x hx
          by_cases hxc : x = s.current
          · right; right; right; left
            refine ⟨hxc, ⟨co, k, hpc⟩, Or.inl ?_⟩
            by_contra hnw
            have h1 := f1 x (by rw [hxc, (hm s.current).2.2.2.2.2]; rw [hxc] at hnw; exact hnw)
            exact hne (h1.2.2.trans hxc)
          · left
            have h1 := f1 x (by rw [(hm x).2.2.1 hxc]; exact hx)
            refine ⟨?_, h1.2.1, h1.2.2⟩
            rw [← (hm x).2.2.1 hxc]; exact h1.1
        · intro co' k' e
          rw [hpc] at e; cases e
          exact (hwt co (f2 co)).2 rfl
        · right; left
          rw [(hm s'.current).2.2.1 hne] at f3
          exact f3
  · -- reading `current`
    rename_i k hpc
    cases h
    refine ⟨fun x hx => absurd rfl hx, fun x hx => absurd rfl hx, ?_, Or.inl rfl, le_refl _,
      rfl, [], by simp, by simp⟩
    intro co k' e
    rw [hpc] at e; cases e
  · -- the loop of `co_wait`, resumed
    rename_i co k hpc
    by_cases hd : (s.mem co).status = CO_DEAD
    · have h' : co_wait_exit fuel s co k = some s' := by
        simpa [co_wait_loop, hd] using h
      obtain ⟨g1, -, g3, g4, g5, g6, g7, g8⟩ := co_wait_exit_inv fuel _ s' co k h'
      refine ⟨?_, fun x hx => absurd (g6 x).1 hx, ?_, Or.inl g1, by rw [g4], g3, _, g5,
        by simp⟩
      · intro x hx
        by_cases hxc : x = s.current
        · right; right; right; right
          exact ⟨hxc, ⟨co, k, hpc⟩, by rw [hxc]; exact g8⟩
        · exact absurd (g7 x hxc) hx
      · intro co' k' e
        rw [hpc] at e; cases e
    · have h' : co_yield fuel s (Cont.in_wait co k) = some s' := by
        simpa [co_wait_loop, hd] using h
      obtain ⟨f1, f2, f3, f4, f6, f7⟩ := co_yield_frame fuel s s' _ h'
      refine ⟨fun x hx => Or.inl (f1 x hx), fun x hx => absurd (f2 x) hx, ?_,
        Or.inr (Or.inl f3), by rw [f7], f6, f4⟩
      intro co' k' e
      rw [hpc] at e; cases e
  · cases h

/-! ## The invariant of the runtime -/

/-- A ring can be read from any of its descriptors. -/
theorem ring_rotate (m : Mem) (a b : Addr) (rest : List Addr) (hr : ring m a rest)
    (hb : b ∈ rest) :
    ∃ rest', ring m b rest' ∧ (∀ x, x ∈ b :: rest' ↔ x ∈ a :: rest) ∧
      rest'.length = rest.length := by
  obtain ⟨pre, post, hrest⟩ := List.append_of_mem hb
  subst hrest
  obtain ⟨hl, hnd, hnull⟩ := hr
  have hsplit := (linked_split m b (post ++ [a]) (a :: pre)).1 (by simpa using hl)
  have hperm : (b :: (post ++ a :: pre)).Perm (a :: (pre ++ b :: post)) := by
    have h1 : (b :: (post ++ a :: pre)).Perm ((a :: pre) ++ b :: post) := by
      have : (b :: post ++ a :: pre).Perm (a :: pre ++ b :: post) := List.perm_append_comm
      simpa using this
    simpa using h1
  refine ⟨post ++ a :: pre, ⟨?_, hperm.nodup_iff.2 hnd, ?_⟩, fun x => hperm.mem_iff, ?_⟩
  · have h1 : linked m ((b :: post) ++ a :: (pre ++ [b])) := by
      rw [linked_split]
      exact ⟨by simpa using hsplit.2, by simpa using hsplit.1⟩
    simpa using h1
  · intro h
    exact hnull (hperm.mem_iff.1 h)
  · simp; omega

/-- What the predecessor loop returns is reached from its starting point and
has the target as its successor. -/
theorem find_prev_some (m : Mem) (t : Addr) :
    ∀ (fuel : Nat) (a h : Addr), find_prev m t fuel a = some h →
      (∃ n, h = follow m n a) ∧ (m h).next = t
  | 0, _, _, hf => by simp [find_prev] at hf
  | fuel + 1, a, h, hf => by
    simp only [find_prev] at hf
    by_cases h1 : (m a).next = t
    · rw [if_pos h1] at hf
      cases hf
      exact ⟨⟨0, rfl⟩, h1⟩
    · rw [if_neg h1] at hf
      by_cases h2 : (m a).next = NULL
      · rw [if_pos h2] at hf
        cases hf
      · rw [if_neg h2] at hf
        obtain ⟨⟨n, hn⟩, h3⟩ := find_prev_some m t fuel _ h hf
        exact ⟨⟨n + 1, hn⟩, h3⟩

/-- In a ring, a successful predecessor loop has found a target of the ring. -/
theorem find_prev_mem (m : Mem) (t cur : Addr) (rest : List Addr) (fuel : Nat) (h : Addr)
    (hr : ring m cur rest) (hf : find_prev m t fuel cur = some h) : t ∈ cur :: rest := by
  obtain ⟨⟨n, hn⟩, h3⟩ := find_prev_some m t fuel cur h hf
  have hh : h ∈ cur :: rest := hn ▸ ring_follow_mem hr n cur (List.mem_cons_self _ _)
  exact h3 ▸ ring_next_mem hr h hh

/-- In a ring, what the scan selects is a descriptor of the ring. -/
theorem scan_mem (m : Mem) (cur sel : Addr) (rest : List Addr) (fuel : Nat)
    (hr : ring m cur rest) (hs : scan m fuel cur = some sel) : sel ∈ cur :: rest := by
  obtain ⟨-, n, hn⟩ := scan_some_not_skipped m fuel cur sel hs
  exact hn ▸ ring_follow_mem hr (n + 1) cur (List.mem_cons_self _ _)

/-- The invariant of the runtime right after `co_constructor`. -/
theorem coreinv_init (junk : Mem) (prog : Prog)
    (hjunk : ∀ a, (junk a).waiter = NULL ∧ (junk a).status = CO_DEAD) :
    coreinv (junk.modify 1 (fun d =>
        { d with status := CO_RUNNING, waiter := NULL, name := "main", next := 1 }))
      1 1 2 (Cont.host prog) [] ∧
    ((junk.modify 1 (fun d =>
        { d with status := CO_RUNNING, waiter := NULL, name := "main", next := 1 })) 1).status
      = CO_RUNNING := by
  have hm1 : ((junk.modify 1 (fun d =>
      { d with status := CO_RUNNING, waiter := NULL, name := "main", next := 1 })) 1).next = 1 ∧
      ((junk.modify 1 (fun d =>
      { d with status := CO_RUNNING, waiter := NULL, name := "main", next := 1 })) 1).status
        = CO_RUNNING ∧
      ((junk.modify 1 (fun d =>
      { d with status := CO_RUNNING, waiter := NULL, name := "main", next := 1 })) 1).waiter
        = NULL := by
    simp [Mem.modify]
  have hmo : ∀ a, a ≠ 1 → ((junk.modify 1 (fun d =>
      { d with status := CO_RUNNING, waiter := NULL, name := "main", next := 1 })) a)
      = junk a := fun a ha => modify_other _ _ _ _ ha
  generalize junk.modify 1 (fun d =>
      { d with status := CO_RUNNING, waiter := NULL, name := "main", next := 1 }) = m
    at hm1 hmo
  refine ⟨⟨⟨⟨hm1.1, trivial⟩, by simp, ?_⟩, by simp, ?_, ?_, ?_, ?_, ?_⟩, hm1.2.1⟩
  · simp only [List.mem_singleton]
    intro e; cases e
  · rw [hm1.2.1]; simp
  · intro a ha
    simp only [List.mem_singleton] at ha
    subst ha
    exact Nat.lt_succ_self 1
  · intro a ha
    have ha1 : a ≠ 1 := by
      rcases ha with ha | ha
      · intro e; subst e
        exact absurd ha (by decide)
      · intro e; subst e; cases ha
    rw [hmo a ha1]; exact hjunk a
  · intro a ha
    simp only [List.mem_singleton] at ha
    subst ha
    refine ⟨fun _ => ⟨prog, by simp [point]⟩, fun hw => ?_⟩
    rw [hm1.2.1] at hw; cases hw
  · intro x hx _ hw
    simp only [List.mem_singleton] at hx
    subst hx
    exact absurd hm1.2.2 hw

/-- The invariant holds when `main` starts, if no block of the memory holds a
waiter and every block has the status of a descriptor that does not run. -/
theorem consistent_init (junk : Mem) (prog : Prog) (s : State)
    (hjunk : ∀ a, (junk a).waiter = NULL ∧ (junk a).status = CO_DEAD)
    (h : init junk prog = some s) : consistent s := by
  have hres : init junk prog = some { (malloc (boot junk prog)).2 with
      mem := junk.modify 1
        (fun d => { d with status := CO_RUNNING, waiter := NULL, name := "main", next := 1 })
      current := 1
      root := 1 } := rfl
  rw [hres] at h
  cases h
  obtain ⟨h1, h2⟩ := coreinv_init junk prog hjunk
  exact ⟨[], h1, Or.inl h2⟩

/-- A `co_yield` whose saved point `k` fits the invariant of the runtime leads to
a state that satisfies the invariant of the process. -/
theorem coreinv_yield (fuel : Nat) (t s' : State) (k : Cont) (rest : List Addr)
    (hcore : coreinv t.mem t.current t.root t.brk k rest)
    (h : co_yield fuel t k = some s') : consistent s' := by
  obtain ⟨sel, hscan, -, hcur, hroot, hbrk, -, hnw, hctx, hctxk, hcase⟩ :=
    co_yield_inv fuel t s' k h
  obtain ⟨hring, hrootm, hrootd, hA1, hA2, hS, hW⟩ := hcore
  have hselm : sel ∈ t.current :: rest := scan_mem t.mem t.current sel rest fuel hring hscan
  have hsk := (scan_some_not_skipped t.mem fuel t.current sel hscan).1
  -- the ring, read from `sel`
  have hring' : ring s'.mem t.current rest :=
    ring_congr t.mem s'.mem t.current rest (fun x => (hnw x).1) hring
  obtain ⟨rest', hring2, hiff⟩ : ∃ rest', ring s'.mem sel rest' ∧
      ∀ x, x ∈ sel :: rest' ↔ x ∈ t.current :: rest := by
    rcases List.mem_cons.1 hselm with e | hm
    · exact ⟨rest, by rw [e]; exact hring', fun x => by rw [e]⟩
    · obtain ⟨r, h1, h2, -⟩ := ring_rotate s'.mem t.current sel rest hring' hm
      exact ⟨r, h1, h2⟩
  -- the points of the descriptors other than `sel` are unchanged
  have hpo : ∀ a, a ≠ sel → point s'.mem sel s'.pc a = point t.mem t.current k a := by
    intro a ha
    unfold point
    rw [if_neg ha]
    by_cases hac : a = t.current
    · rw [if_pos hac, hac]; exact hctxk
    · rw [if_neg hac]; exact hctx a hac
  have hps : point s'.mem sel s'.pc sel = s'.pc := by simp [point]
  -- statuses and points after the selection
  have hfacts : (∀ x, (s'.mem x).status = CO_DEAD ↔ (t.mem x).status = CO_DEAD) ∧
      (∀ x, (s'.mem x).status = CO_WAITING ↔ (t.mem x).status = CO_WAITING) ∧
      (∀ x, (t.mem x).status = CO_WAITING →
        point s'.mem sel s'.pc x = point t.mem t.current k x) ∧
      (∀ x ∈ t.current :: rest, (s'.mem x).status = CO_RUNNING →
        ∃ p, point s'.mem sel s'.pc x = Cont.host p) ∧
      (s'.mem sel).status = CO_RUNNING := by
    rcases hcase with ⟨h1, h2, h3, h4, -⟩ | ⟨h1, h3, h4, -⟩
    · refine ⟨?_, ?_, ?_, ?_, h2⟩
      · intro x
        by_cases hx : x = sel
        · subst hx; rw [h1, h2]; simp
        · rw [h3 x hx]
      · intro x
        by_cases hx : x = sel
        · subst hx; rw [h1, h2]; simp
        · rw [h3 x hx]
      · intro x hx
        apply hpo
        intro e
        rw [e, h1] at hx
        cases hx
      · intro x hxm hx
        by_cases hxs : x = sel
        · subst hxs
          exact ⟨_, hps.trans h4⟩
        · rw [h3 x hxs] at hx
          rw [hpo x hxs]
          exact (hS x hxm).1 hx
    · have hpall : ∀ x, point s'.mem sel s'.pc x = point t.mem t.current k x := by
        intro x
        by_cases hxs : x = sel
        · subst hxs
          rw [hps, h4]
          unfold point
          by_cases hc : x = t.current
          · rw [if_pos hc, hc]; exact hctxk
          · rw [if_neg hc]; exact hctx x hc
        · exact hpo x hxs
      have hselr : (t.mem sel).status = CO_RUNNING := by
        cases hst : (t.mem sel).status
        · exact absurd hst h1
        · rfl
        · rw [hst] at hsk; cases hsk
        · rw [hst] at hsk; cases hsk
      refine ⟨fun x => by rw [h3 x], fun x => by rw [h3 x], fun x _ => hpall x, ?_,
        by rw [h3 sel]; exact hselr⟩
      intro x hxm hx
      rw [h3 x] at hx
      rw [hpall x]
      exact (hS x hxm).1 hx
  obtain ⟨hdead, hwait, hpw, hrun, hselr⟩ := hfacts
  refine ⟨rest', ⟨?_, ?_, ?_, ?_, ?_, ?_, ?_⟩, ?_⟩
  · rw [hcur]; exact hring2
  · rw [hcur, hroot]; exact (hiff _).2 hrootm
  · rw [hroot]
    intro e
    exact hrootd ((hdead _).1 e)
  · intro a ha
    rw [hcur] at ha
    rw [hbrk]
    exact hA1 a ((hiff a).1 ha)
  · intro a ha
    rw [hbrk] at ha
    obtain ⟨h1, h2⟩ := hA2 a ha
    exact ⟨(hnw a).2.trans h1, (hdead a).2 h2⟩
  · intro a ha
    rw [hcur] at ha ⊢
    have ham := (hiff a).1 ha
    refine ⟨fun hr => hrun a ham hr, fun hw => ?_⟩
    have hw' := (hwait a).1 hw
    rw [hpw a hw']
    exact (hS a ham).2 hw'
  · intro x hx hnd hwn
    rw [hcur] at hx ⊢
    have hxm := (hiff x).1 hx
    have hnd' : (t.mem x).status ≠ CO_DEAD := fun e => hnd ((hdead x).2 e)
    rw [(hnw x).2] at hwn ⊢
    obtain ⟨w1, w2, kk, w3⟩ := hW x hxm hnd' hwn
    exact ⟨(hiff _).2 w1, (hwait _).2 w2, kk, (hpw _ w2).trans w3⟩
  · rw [hcur]; exact Or.inl hselr

theorem point_self (m : Mem) (cur : Addr) (k : Cont) : point m cur k cur = k := by
  simp [point]

theorem point_other (m : Mem) (cur : Addr) (k : Cont) (a : Addr) (h : a ≠ cur) :
    point m cur k a = (m a).context := by
  simp [point, h]

/-- Under the invariant, the coroutine that runs host code is Running. -/
theorem consistent_running (s : State) (p : Prog) (hc : consistent s)
    (hpc : s.pc = Cont.host p) : (s.mem s.current).status = CO_RUNNING := by
  obtain ⟨rest, ⟨-, -, -, -, -, hS, -⟩, h0⟩ := hc
  rcases h0 with h0 | h0
  · exact h0
  · obtain ⟨co, kk, e⟩ := (hS s.current (List.mem_cons_self _ _)).2 h0
    rw [point_self, hpc] at e
    cases e

/-- Under the invariant, the coroutine that is in the loop of `co_wait` is
Waiting. -/
theorem consistent_waiting (s : State) (co : Addr) (k : Prog) (hc : consistent s)
    (hpc : s.pc = Cont.in_wait co k) : (s.mem s.current).status = CO_WAITING := by
  obtain ⟨rest, ⟨-, -, -, -, -, hS, -⟩, h0⟩ := hc
  rcases h0 with h0 | h0
  · obtain ⟨p, e⟩ := (hS s.current (List.mem_cons_self _ _)).1 h0
    rw [point_self, hpc] at e
    cases e
  · exact h0

/-- The invariant does not depend on which host code current runs. -/
theorem consistent_host (s s' : State) (p p' : Prog) (hc : consistent s)
    (hpc : s.pc = Cont.host p) (hpc' : s'.pc = Cont.host p') (hm : s'.mem = s.mem)
    (hcur : s'.current = s.current) (hroot : s'.root = s.root) (hbrk : s'.brk = s.brk) :
    consistent s' := by
  have hrun := consistent_running s p hc hpc
  obtain ⟨rest, ⟨hring, hrootm, hrootd, hA1, hA2, hS, hW⟩, -⟩ := hc
  refine ⟨rest, ?_, Or.inl (by rw [hm, hcur]; exact hrun)⟩
  rw [hm, hcur, hroot, hbrk, hpc']
  refine ⟨hring, hrootm, hrootd, hA1, hA2, ?_, ?_⟩
  · intro a ha
    by_cases hac : a = s.current
    · subst hac
      refine ⟨fun _ => ⟨p', point_self _ _ _⟩, fun hw => ?_⟩
      rw [hrun] at hw; cases hw
    · rw [point_other _ _ _ _ hac]
      have := hS a ha
      rw [point_other _ _ _ _ hac] at this
      exact this
  · intro x hx hnd hwn
    obtain ⟨w1, w2, kk, w3⟩ := hW x hx hnd hwn
    have hwc : (s.mem x).waiter ≠ s.current := by
      intro e
      rw [e, hrun] at w2; cases w2
    refine ⟨w1, w2, kk, ?_⟩
    rw [point_other _ _ _ _ hwc] at w3 ⊢
    exact w3

/-- Lines 82-83 of `co_wait` on an allocated target: the caller is now at the
loop of its wait. -/
theorem coreinv_mark (s : State) (co : Addr) (k : Prog) (rest : List Addr)
    (hcore : coreinv s.mem s.current s.root s.brk s.pc rest)
    (hrun : (s.mem s.current).status = CO_RUNNING)
    (hco : co < s.brk) (hco0 : co ≠ NULL) :
    coreinv (co_wait_mark s co).mem s.current s.root s.brk (Cont.in_wait co k) rest := by
  obtain ⟨hring, hrootm, hrootd, hA1, hA2, hS, hW⟩ := hcore
  have hm := co_wait_mark_frame s co
  have hcb : s.current < s.brk := hA1 _ (List.mem_cons_self _ _)
  have hc0 : s.current ≠ NULL := fun e => hring.2.2 (by rw [e]; simp)
  refine ⟨ring_congr s.mem _ s.current rest (fun x => (hm x).1) hring, hrootm, ?_, hA1, ?_,
    ?_, ?_⟩
  · by_cases hr : s.root = s.current
    · rw [hr, (hm s.current).2.2.2.2.2]; simp
    · rw [(hm s.root).2.2.1 hr]; exact hrootd
  · intro a ha
    have hac : a ≠ s.current := by
      rcases ha with ha | ha
      · exact fun e => absurd (e ▸ ha) (Nat.not_le_of_lt hcb)
      · exact fun e => hc0 (e ▸ ha)
    have haco : a ≠ co := by
      rcases ha with ha | ha
      · exact fun e => absurd (e ▸ ha) (Nat.not_le_of_lt hco)
      · exact fun e => hco0 (e ▸ ha)
    rw [(hm a).2.2.1 hac, (hm a).2.2.2.1 haco]
    exact hA2 a ha
  · intro a ha
    by_cases hac : a = s.current
    · subst hac
      rw [(hm s.current).2.2.2.2.2, point_self]
      exact ⟨fun e => (by cases e), fun _ => ⟨co, k, rfl⟩⟩
    · rw [(hm a).2.2.1 hac, point_other _ _ _ _ hac, (hm a).2.1]
      have := hS a ha
      rw [point_other _ _ _ _ hac] at this
      exact this
  · intro x hx hnd hwn
    by_cases hxco : x = co
    · subst hxco
      rw [(hm x).2.2.2.2.1]
      exact ⟨List.mem_cons_self _ _, (hm s.current).2.2.2.2.2, k, point_self _ _ _⟩
    · rw [(hm x).2.2.2.1 hxco] at hwn ⊢
      have hnd' : (s.mem x).status ≠ CO_DEAD := by
        by_cases hxc : x = s.current
        · rw [hxc, hrun]; simp
        · rw [(hm x).2.2.1 hxc] at hnd; exact hnd
      obtain ⟨w1, w2, kk, w3⟩ := hW x hx hnd' hwn
      have hwc : (s.mem x).waiter ≠ s.current := by
        intro e
        rw [e, hrun] at w2; cases w2
      refine ⟨w1, ?_, kk, ?_⟩
      · rw [(hm _).2.2.1 hwc]; exact w2
      · rw [point_other _ _ _ _ hwc] at w3 ⊢
        rw [(hm _).2.1]; exact w3

/-- A successful exit of the loop of `co_wait` has a target of the ring. -/
theorem co_wait_exit_target (fuel : Nat) (s s' : State) (co : Addr) (k : Prog)
    (rest : List Addr) (hring : ring s.mem s.current rest)
    (h : co_wait_exit fuel s co k = some s') : co ∈ s.current :: rest := by
  cases hf : find_prev (s.mem.modify s.current (fun d => { d with status := CO_RUNNING }))
      co fuel s.current with
  | none => simp [co_wait_exit, hf] at h
  | some p =>
    exact find_prev_mem _ co s.current rest fuel p
      (ring_congr s.mem _ s.current rest (fun x => modify_status_next _ _ _ x) hring) hf

/-- More fuel does not change the exit of the loop of `co_wait`. -/
theorem co_wait_exit_mono (f f' : Nat) (s s' : State) (co : Addr) (k : Prog)
    (h : co_wait_exit f s co k = some s') (hle : f ≤ f') :
    co_wait_exit f' s co k = some s' := by
  cases hf : find_prev (s.mem.modify s.current (fun d => { d with status := CO_RUNNING }))
      co f s.current with
  | none => simp [co_wait_exit, hf] at h
  | some p =>
    have hf' := find_prev_mono _ _ f f' _ p hf hle
    simp only [co_wait_exit, hf] at h
    simp only [co_wait_exit, hf']
    exact h

/-- The exit of the loop of `co_wait` by a Waiting caller, on a Dead target,
leads to a state that satisfies the invariant of the process. -/
theorem coreinv_exit (fuel : Nat) (t s' : State) (co : Addr) (k : Prog) (rest : List Addr)
    (hcore : coreinv t.mem t.current t.root t.brk (Cont.in_wait co k) rest)
    (hwait : (t.mem t.current).status = CO_WAITING)
    (hdead : (t.mem co).status = CO_DEAD)
    (h : co_wait_exit fuel t co k = some s') : consistent s' := by
  obtain ⟨hring, hrootm, hrootd, hA1, hA2, hS, hW⟩ := hcore
  have hcom := co_wait_exit_target fuel t s' co k rest hring h
  have hcoc : co ≠ t.current := by
    intro e
    rw [e, hwait] at hdead; cases hdead
  have hcor : co ∈ rest := by
    rcases List.mem_cons.1 hcom with e | e
    · exact absurd e hcoc
    · exact e
  have h2 := co_wait_exit_mono fuel (max fuel rest.length) t s' co k h (Nat.le_max_left _ _)
  obtain ⟨s'', pre, post, hh, hres, hpc, hcur, hroot, hbrk, -, -, hrest, hring2, hco3, -, -, -,
    -, hst, hstatus, hwc⟩ :=
    co_wait_exit_spec (max fuel rest.length) t co k rest hring hcor (Nat.le_max_right _ _)
  rw [h2] at hres
  cases hres
  subst hrest
  have hsub : ∀ x, x ∈ t.current :: (pre ++ post) → x ∈ t.current :: (pre ++ co :: post) := by
    intro x hx
    simp only [List.mem_cons, List.mem_append] at hx ⊢
    tauto
  refine ⟨pre ++ post, ⟨?_, ?_, ?_, ?_, ?_, ?_, ?_⟩, Or.inl (by rw [hcur]; exact hst)⟩
  · rw [hcur]; exact hring2
  · rw [hcur, hroot]
    have hrc : t.root ≠ co := by
      intro e
      rw [e] at hrootd
      exact hrootd hdead
    simp only [List.mem_cons, List.mem_append] at hrootm ⊢
    tauto
  · rw [hroot]
    by_cases hr : t.root = t.current
    · rw [hr, hst]; simp
    · rw [hstatus _ hr]; exact hrootd
  · intro a ha
    rw [hcur] at ha
    rw [hbrk]
    exact hA1 a (hsub a ha)
  · intro a ha
    rw [hbrk] at ha
    have hcb : t.current < t.brk := hA1 _ (List.mem_cons_self _ _)
    have hc0 : t.current ≠ NULL := fun e => hring.2.2 (by rw [e]; simp)
    have hac : a ≠ t.current := by
      rcases ha with ha | ha
      · exact fun e => absurd (e ▸ ha) (Nat.not_le_of_lt hcb)
      · exact fun e => hc0 (e ▸ ha)
    rw [(hwc a).1, hstatus a hac]
    exact hA2 a ha
  · intro a ha
    rw [hcur] at ha ⊢
    rw [hpc]
    by_cases hac : a = t.current
    · subst hac
      rw [hst, point_self]
      exact ⟨fun _ => ⟨k, rfl⟩, fun e => (by cases e)⟩
    · rw [hstatus a hac, point_other _ _ _ _ hac, (hwc a).2]
      have := hS a (hsub a ha)
      rw [point_other _ _ _ _ hac] at this
      exact this
  · intro x hx hnd hwn
    rw [hcur] at hx ⊢
    rw [hpc]
    rw [(hwc x).1] at hwn ⊢
    have hxco : x ≠ co := fun e => hco3 (e ▸ hx)
    have hnd' : (t.mem x).status ≠ CO_DEAD := by
      by_cases hxc : x = t.current
      · rw [hxc, hwait]; simp
      · rw [hstatus x hxc] at hnd; exact hnd
    obtain ⟨w1, w2, kk, w3⟩ := hW x (hsub x hx) hnd' hwn
    have hwc' : (t.mem x).waiter ≠ t.current := by
      intro e
      rw [e, point_self] at w3
      cases w3
      exact hxco rfl
    have hwco : (t.mem x).waiter ≠ co := by
      intro e
      rw [e, hdead] at w2; cases w2
    refine ⟨?_, ?_, kk, ?_⟩
    · simp only [List.mem_cons, List.mem_append] at w1 ⊢
      tauto
    · rw [hstatus _ hwc']; exact w2
    · rw [point_other _ _ _ _ hwc'] at w3 ⊢
      rw [(hwc _).2]; exact w3

/-- Line 120 of `co_yield`: once current, which is not the root, is made Dead,
the invariant of the runtime holds whatever the execution point of current. -/
theorem coreinv_dead (s : State) (k' : Cont) (rest : List Addr)
    (hcore : coreinv s.mem s.current s.root s.brk s.pc rest)
    (hrun : (s.mem s.current).status = CO_RUNNING) (hroot : s.current ≠ s.root) :
    coreinv (s.mem.modify s.current (fun d => { d with status := CO_DEAD }))
      s.current s.root s.brk k' rest := by
  obtain ⟨hring, hrootm, hrootd, hA1, hA2, hS, hW⟩ := hcore
  have hd := modify_status s.mem s.current CO_DEAD
  have hcb : s.current < s.brk := hA1 _ (List.mem_cons_self _ _)
  have hc0 : s.current ≠ NULL := fun e => hring.2.2 (by rw [e]; simp)
  refine ⟨ring_congr s.mem _ s.current rest (fun x => (hd x).1) hring, hrootm, ?_, hA1, ?_,
    ?_, ?_⟩
  · rw [(hd s.root).2.2.2.1 (fun e => hroot e.symm)]; exact hrootd
  · intro a ha
    have hac : a ≠ s.current := by
      rcases ha with ha | ha
      · exact fun e => absurd (e ▸ ha) (Nat.not_le_of_lt hcb)
      · exact fun e => hc0 (e ▸ ha)
    rw [(hd a).2.1, (hd a).2.2.2.1 hac]
    exact hA2 a ha
  · intro a ha
    by_cases hac : a = s.current
    · subst hac
      rw [(hd s.current).2.2.2.2]
      exact ⟨fun e => (by cases e), fun e => (by cases e)⟩
    · rw [(hd a).2.2.2.1 hac, point_other _ _ _ _ hac, (hd a).2.2.1]
      have := hS a ha
      rw [point_other _ _ _ _ hac] at this
      exact this
  · intro x hx hnd hwn
    have hxc : x ≠ s.current := by
      intro e
      rw [e, (hd s.current).2.2.2.2] at hnd
      exact hnd rfl
    rw [(hd x).2.2.2.1 hxc] at hnd
    rw [(hd x).2.1] at hwn ⊢
    obtain ⟨w1, w2, kk, w3⟩ := hW x hx hnd hwn
    have hwc : (s.mem x).waiter ≠ s.current := by
      intro e
      rw [e, hrun] at w2; cases w2
    refine ⟨w1, ?_, kk, ?_⟩
    · rw [(hd _).2.2.2.1 hwc]; exact w2
    · rw [point_other _ _ _ _ hwc] at w3 ⊢
      rw [(hd _).2.2.1]; exact w3

/-- Lines 123-124 of `co_yield`: when current is Dead, the invariant of the
runtime holds again once a descriptor of the ring is made current and its saved
context is resumed. -/
theorem coreinv_switch (m : Mem) (cur root brk w : Addr) (k : Cont) (rest : List Addr)
    (hcore : coreinv m cur root brk k rest) (hdead : (m cur).status = CO_DEAD)
    (hw : w ∈ cur :: rest) :
    ∃ rest', coreinv m w root brk (m w).context rest' := by
  obtain ⟨hring, hrootm, hrootd, hA1, hA2, hS, hW⟩ := hcore
  obtain ⟨rest', hring2, hiff⟩ : ∃ rest', ring m w rest' ∧
      ∀ x, x ∈ w :: rest' ↔ x ∈ cur :: rest := by
    rcases List.mem_cons.1 hw with e | hm
    · exact ⟨rest, by rw [e]; exact hring, fun x => by rw [e]⟩
    · obtain ⟨r, h1, h2, -⟩ := ring_rotate m cur w rest hring hm
      exact ⟨r, h1, h2⟩
  have hp : ∀ a, a ≠ cur → point m w (m w).context a = point m cur k a := by
    intro a ha
    rw [point_other _ _ _ _ ha]
    by_cases haw : a = w
    · rw [haw, point_self]
    · rw [point_other _ _ _ _ haw]
  refine ⟨rest', hring2, (hiff _).2 hrootm, hrootd, fun a ha => hA1 a ((hiff a).1 ha), hA2,
    ?_, ?_⟩
  · intro a ha
    by_cases hac : a = cur
    · rw [hac, hdead]
      exact ⟨fun e => (by cases e), fun e => (by cases e)⟩
    · rw [hp a hac]
      exact hS a ((hiff a).1 ha)
  · intro x hx hnd hwn
    obtain ⟨w1, w2, kk, w3⟩ := hW x ((hiff x).1 hx) hnd hwn
    have hwc : (m x).waiter ≠ cur := by
      intro e
      rw [e, hdead] at w2; cases w2
    exact ⟨(hiff _).2 w1, w2, kk, (hp _ hwc).trans w3⟩

/-- A `co_start` by a coroutine that runs host code keeps the invariant. -/
theorem consistent_start (fuel : Nat) (s s1 : State) (p : Prog) (name : String)
    (func : Nat → Prog) (arg : Nat) (hc : consistent s) (hpc : s.pc = Cont.host p)
    (h : co_start fuel (malloc s).2 (malloc s).1 name func arg = some s1) :
    consistent s1 := by
  have hrun := consistent_running s p hc hpc
  obtain ⟨rest, ⟨hring, hrootm, hrootd, hA1, hA2, hS, hW⟩, -⟩ := hc
  have hcb : s.current < s.brk := hA1 _ (List.mem_cons_self _ _)
  have hfresh : s.brk ∉ s.current :: rest := fun hm => absurd (hA1 _ hm) (Nat.lt_irrefl _)
  have hnn : s.brk ≠ NULL := fun e => absurd (e ▸ hcb) (Nat.not_lt_zero _)
  have h2 := co_start_mono fuel (max fuel (rest.length + 1)) _ s1 _ _ _ _ h
    (Nat.le_max_left _ _)
  obtain ⟨s', q, hh, hres, -, hcur, hpc', hroot, hbrk, -, -, -, -, hring3, -, hstatus, hnew, -,
    -, -, hwc⟩ :=
    co_start_spec (max fuel (rest.length + 1)) (malloc s).2 s.brk name func arg rest
      hring hfresh hnn (Nat.lt_of_lt_of_le (Nat.lt_succ_self _) (Nat.le_max_right _ _))
  have h2' : co_start (max fuel (rest.length + 1)) (malloc s).2 s.brk name func arg = some s1 :=
    h2
  rw [h2'] at hres
  cases hres
  have hcur' : s1.current = s.current := hcur
  have hroot' : s1.root = s.root := hroot
  have hbrk' : s1.brk = s.brk + 1 := hbrk
  have hpc'' : s1.pc = s.pc := hpc'
  have hring3' : ring s1.mem s.current (rest ++ [s.brk]) := hring3
  have hstatus' : ∀ x, x ≠ s.brk → (s1.mem x).status = (s.mem x).status := hstatus
  have hwc' : ∀ x, (s1.mem x).waiter = (s.mem x).waiter ∧
      (s1.mem x).context = (s.mem x).context := hwc
  have hold : ∀ x, x ∈ s.current :: rest → x ≠ s.brk := fun x hx e => hfresh (e ▸ hx)
  have hsplit : ∀ x, x ∈ s.current :: (rest ++ [s.brk]) → x ∈ s.current :: rest ∨ x = s.brk := by
    intro x hx
    simp only [List.mem_cons, List.mem_append, List.mem_singleton, List.not_mem_nil,
      or_false] at hx ⊢
    tauto
  have hpt : ∀ a, point s1.mem s.current s.pc a = point s.mem s.current s.pc a := by
    intro a
    by_cases hac : a = s.current
    · rw [hac, point_self, point_self]
    · rw [point_other _ _ _ _ hac, point_other _ _ _ _ hac, (hwc' a).2]
  refine ⟨rest ++ [s.brk], ?_, Or.inl ?_⟩
  · rw [hcur', hroot', hbrk', hpc'']
    refine ⟨hring3', ?_, ?_, ?_, ?_, ?_, ?_⟩
    · simp only [List.mem_cons, List.mem_append] at hrootm ⊢
      tauto
    · rw [hstatus' _ (hold _ hrootm)]; exact hrootd
    · intro a ha
      rcases hsplit a ha with h1 | h1
      · exact Nat.lt_succ_of_lt (hA1 a h1)
      · rw [h1]; exact Nat.lt_succ_self _
    · intro a ha
      have hab : a ≠ s.brk := by
        rcases ha with ha | ha
        · exact fun e => absurd (e ▸ ha) (Nat.not_succ_le_self _)
        · exact fun e => hnn (e ▸ ha)
      have ha' : s.brk ≤ a ∨ a = NULL := by
        rcases ha with ha | ha
        · exact Or.inl (Nat.le_of_succ_le ha)
        · exact Or.inr ha
      rw [(hwc' a).1, hstatus' a hab]
      exact hA2 a ha'
    · intro a ha
      rcases hsplit a ha with h1 | h1
      · rw [hstatus' a (hold a h1), hpt a]
        exact hS a h1
      · rw [h1]
        have : (s1.mem s.brk).status = CO_NEW := hnew
        rw [this]
        exact ⟨fun e => (by cases e), fun e => (by cases e)⟩
    · intro x hx hnd hwn
      rw [(hwc' x).1] at hwn ⊢
      rcases hsplit x hx with h1 | h1
      · rw [hstatus' x (hold x h1)] at hnd
        obtain ⟨w1, w2, kk, w3⟩ := hW x h1 hnd hwn
        refine ⟨?_, ?_, kk, ?_⟩
        · simp only [List.mem_cons, List.mem_append] at w1 ⊢
          tauto
        · rw [hstatus' _ (hold _ w1)]; exact w2
        · rw [hpt]; exact w3
      · exfalso
        rw [h1] at hwn
        exact hwn (hA2 s.brk (Or.inl (Nat.le_refl _))).1
  · rw [hcur', hstatus' _ (hold _ (List.mem_cons_self _ _))]
    exact hrun

/-- Every step keeps the invariant of the process. -/
theorem consistent_step (fuel : Nat) (s s' : State) (hc : consistent s)
    (h : step fuel s = some s') : consistent s' := by
  unfold step at h
  split at h
  · -- the return of an entry function
    rename_i hpc
    by_cases hr : s.current = s.root
    · simp [hr] at h
    · rw [if_neg hr] at h
      have hrun := consistent_running s _ hc hpc
      obtain ⟨rest, hcore, -⟩ := hc
      by_cases hw : (s.mem s.current).waiter = NULL
      · rw [entry_return_no_waiter fuel s hw] at h
        exact coreinv_yield fuel _ s' Cont.rescheduling rest
          (coreinv_dead s Cont.rescheduling rest hcore hrun hr) h
      · rw [entry_return_waiter fuel s hw] at h
        cases h
        have hd := modify_status s.mem s.current CO_DEAD
        obtain ⟨w1, w2, -⟩ := hcore.2.2.2.2.2.2 s.current (List.mem_cons_self _ _)
          (by rw [hrun]; simp) hw
        have hwc : (s.mem s.current).waiter ≠ s.current := by
          intro e
          rw [e, hrun] at w2; cases w2
        obtain ⟨rest', hcore'⟩ := coreinv_switch _ s.current s.root s.brk
          (s.mem s.current).waiter Cont.rescheduling rest
          (coreinv_dead s Cont.rescheduling rest hcore hrun hr) (hd s.current).2.2.2.2 w1
        refine ⟨rest', hcore', Or.inr ?_⟩
        show ((s.mem.modify s.current (fun d => { d with status := CO_DEAD }))
          (s.mem s.current).waiter).status = CO_WAITING
        rw [(hd _).2.2.2.1 hwc]; exact w2
  · -- an output of the host
    rename_i t k hpc
    cases h
    exact consistent_host s _ _ k hc hpc rfl rfl rfl rfl rfl
  · -- `co_yield` called by the host
    rename_i k hpc
    have hc' : consistent { s with pc := Cont.host k } :=
      consistent_host s _ _ k hc hpc rfl rfl rfl rfl rfl
    obtain ⟨rest, hcore, -⟩ := hc'
    exact coreinv_yield fuel s s' (Cont.host k) rest hcore h
  · -- `co_start`
    rename_i name func arg k hpc
    cases hcs : co_start fuel (malloc s).2 (malloc s).1 name func arg with
    | none => simp [hcs] at h
    | some s1 =>
      simp only [hcs, Option.some.injEq] at h
      subst h
      have hc1 := consistent_start fuel s s1 _ name func arg hc hpc hcs
      have hpc1 : s1.pc = s.pc := (co_start_inv fuel _ s1 _ _ _ _ hcs).2.2.2.1
      exact consistent_host s1 _ _ (k (malloc s).1) hc1 (hpc1.trans hpc) rfl rfl rfl rfl rfl
  · -- `co_wait`
    rename_i co k hpc
    by_cases hcur : s.current = NULL
    · simp [co_wait, hcur] at h
    · simp only [co_wait, if_neg hcur] at h
      have hrun := consistent_running s _ hc hpc
      obtain ⟨rest, hcore, -⟩ := hc
      have hm := co_wait_mark_frame s co
      have hcb : s.current < s.brk := hcore.2.2.2.1 _ (List.mem_cons_self _ _)
      by_cases hd : ((co_wait_mark s co).mem co).status = CO_DEAD
      · have h' : co_wait_exit fuel (co_wait_mark s co) co k = some s' := by
          simpa [co_wait_loop, hd] using h
        have hring1 : ring (co_wait_mark s co).mem (co_wait_mark s co).current rest :=
          ring_congr s.mem _ s.current rest (fun x => (hm x).1) hcore.1
        have hcom := co_wait_exit_target fuel _ s' co k rest hring1 h'
        have hcob : co < s.brk := hcore.2.2.2.1 co hcom
        have hco0 : co ≠ NULL := fun e => hcore.1.2.2 (e ▸ hcom)
        exact coreinv_exit fuel (co_wait_mark s co) s' co k rest
          (coreinv_mark s co k rest hcore hrun hcob hco0) (hm s.current).2.2.2.2.2 hd h'
      · have h' : co_yield fuel (co_wait_mark s co) (Cont.in_wait co k) = some s' := by
          simpa [co_wait_loop, hd] using h
        have hco : co < s.brk ∧ co ≠ NULL := by
          by_cases hcc : co = s.current
          · rw [hcc]; exact ⟨hcb, hcur⟩
          · rw [(hm co).2.2.1 hcc] at hd
            constructor
            · by_contra hlt
              exact hd (hcore.2.2.2.2.1 co (Or.inl (Nat.le_of_not_lt hlt))).2
            · intro e
              exact hd (hcore.2.2.2.2.1 co (Or.inr e)).2
        exact coreinv_yield fuel (co_wait_mark s co) s' (Cont.in_wait co k) rest
          (coreinv_mark s co k rest hcore hrun hco.1 hco.2) h'
  · -- reading `current`
    rename_i k hpc
    cases h
    exact consistent_host s _ _ (k s.current) hc hpc rfl rfl rfl rfl rfl
  · -- the loop of `co_wait`, resumed
    rename_i co k hpc
    have hwait := consistent_waiting s co k hc hpc
    obtain ⟨rest, hcore, -⟩ := hc
    rw [hpc] at hcore
    by_cases hd : (s.mem co).status = CO_DEAD
    · have h' : co_wait_exit fuel s co k = some s' := by
        simpa [co_wait_loop, hd] using h
      exact coreinv_exit fuel s s' co k rest hcore hwait hd h'
    · have h' : co_yield fuel s (Cont.in_wait co k) = some s' := by
        simpa [co_wait_loop, hd] using h
      exact coreinv_yield fuel s s' (Cont.in_wait co k) rest hcore h'
  · cases h

/-- Every run keeps the invariant of the process. -/
theorem consistent_exec (fuel : Nat) :
    ∀ (n : Nat) (s s' : State), consistent s → exec fuel n s = some s' → consistent s'
  | 0, s, s', hc, h => by
    simp only [exec, Option.some.injEq] at h
    subst h
    exact hc
  | n + 1, s, s', hc, h => by
    cases hs : step fuel s with
    | none => simp [exec, hs] at h
    | some s1 =>
      simp only [exec, hs, Option.some_bind] at h
      exact consistent_exec fuel n s1 s' (consistent_step fuel s s1 hc hs) h

/-- Under the invariant, a step changes the status of an allocated descriptor
only along the life cycle. -/
theorem legal_step (fuel : Nat) (s s' : State) (hc : consistent s)
    (h : step fuel s = some s') (a : Addr) (ha : a < s.brk) :
    (s'.mem a).status = (s.mem a).status ∨
    ((s.mem a).status = CO_NEW ∧ (s'.mem a).status = CO_RUNNING) ∨
    ((s.mem a).status = CO_RUNNING ∧ (s'.mem a).status = CO_WAITING) ∨
    ((s.mem a).status = CO_WAITING ∧ (s'.mem a).status = CO_RUNNING) ∨
    ((s.mem a).status = CO_RUNNING ∧ (s'.mem a).status = CO_DEAD) := by
  by_cases hx : (s'.mem a).status = (s.mem a).status
  · exact Or.inl hx
  · obtain ⟨f1, -⟩ := step_frame fuel s s' h
    rcases f1 a hx with h1 | h1 | h1 | h1 | h1
    · exact Or.inr (Or.inl ⟨h1.1, h1.2.1⟩)
    · exact absurd h1.1 (Nat.ne_of_lt ha)
    · obtain ⟨e, hpc, h2⟩ := h1
      have hrun := consistent_running s _ hc hpc
      rw [e]
      exact Or.inr (Or.inr (Or.inr (Or.inr ⟨hrun, by rw [← e]; exact h2⟩)))
    · obtain ⟨e, ⟨co, k, hpc⟩, h2⟩ := h1
      have hrun := consistent_running s _ hc hpc
      rw [e] at hx h2 ⊢
      rcases h2 with h2 | h2
      · exact Or.inr (Or.inr (Or.inl ⟨hrun, h2⟩))
      · exact absurd (h2.trans hrun.symm) hx
    · obtain ⟨e, ⟨co, k, hpc⟩, h2⟩ := h1
      have hwait := consistent_waiting s co k hc hpc
      rw [e] at h2 ⊢
      exact Or.inr (Or.inr (Or.inr (Or.inl ⟨hwait, h2⟩)))

/-- A run from a memory without stale waiters keeps the invariant of the
process. -/
theorem consistent_reachable (junk : Mem) (prog : Prog) (fuel n : Nat) (s0 s : State)
    (hjunk : ∀ a, (junk a).waiter = NULL ∧ (junk a).status = CO_DEAD)
    (h0 : init junk prog = some s0) (hrun : exec fuel n s0 = some s) : consistent s :=
  consistent_exec fuel n s0 s (consistent_init junk prog s0 hjunk h0) hrun

/-- The ring invariant, for a memory without stale waiters: in every state of a
run, the descriptors reached from current by `next` form a ring, and the root
is one of them. -/
theorem ring_of_clean_memory (junk : Mem) (prog : Prog) (fuel n : Nat) (s0 s : State)
    (hjunk : ∀ a, (junk a).waiter = NULL ∧ (junk a).status = CO_DEAD)
    (h0 : init junk prog = some s0) (hrun : exec fuel n s0 = some s) :
    ∃ rest, ring s.mem s.current rest ∧ s.root ∈ s.current :: rest ∧
      ∀ a ∈ s.current :: rest, a < s.brk := by
  obtain ⟨rest, hcore, -⟩ := consistent_reachable junk prog fuel n s0 s hjunk h0 hrun
  exact ⟨rest, hcore.1, hcore.2.1, hcore.2.2.2.1⟩

/-- A descriptor that is Dead stays Dead in every run that keeps the
invariant. -/
theorem dead_exec (fuel : Nat) :
    ∀ (n : Nat) (s s' : State), consistent s → exec fuel n s = some s' →
      ∀ a, a < s.brk → (s.mem a).status = CO_DEAD → (s'.mem a).status = CO_DEAD
  | 0, s, s', _, h, a, _, hd => by
    simp only [exec, Option.some.injEq] at h
    subst h
    exact hd
  | n + 1, s, s', hc, h, a, ha, hd => by
    cases hs : step fuel s with
    | none => simp [exec, hs] at h
    | some s1 =>
      simp only [exec, hs, Option.some_bind] at h
      have hb : s.brk ≤ s1.brk := (step_frame fuel s s1 hs).2.2.2.2.1
      have hd1 : (s1.mem a).status = CO_DEAD := by
        rcases legal_step fuel s s1 hc hs a ha with h1 | h1 | h1 | h1 | h1
        · rw [h1]; exact hd
        · rw [hd] at h1; exact absurd h1.1 (by decide)
        · rw [hd] at h1; exact absurd h1.1 (by decide)
        · rw [hd] at h1; exact absurd h1.1 (by decide)
        · rw [hd] at h1; exact absurd h1.1 (by decide)
      exact dead_exec fuel n s1 s' (consistent_step fuel s s1 hc hs) h a
        (Nat.lt_of_lt_of_le ha hb) hd1

/-! ## The claims on the invariants -/

/-- C11, at a failing input: `main` creates A on a block whose `waiter` field
holds a stale pointer (`co_start` never writes the field) and yields; A runs
and its entry function returns.  Before that return the descriptors form the
ring of current and the root is in it; after it, lines 122-123 have set
`current` to the stale pointer, which is no descriptor: the root and A still
form a ring, current is not in it, and no ring goes through current. -/
theorem stale_waiter_leaves_ring :
    ∃ s0 s s', init dangling one_shot_main = some s0 ∧ exec 2 2 s0 = some s ∧
      step 2 s = some s' ∧
      s.pc = Cont.host Prog.ret ∧ s.current = 2 ∧ (s.mem s.current).waiter = 7 ∧
      ring s.mem s.current [1] ∧ s.root ∈ s.current :: [1] ∧
      s'.current = 7 ∧ s'.brk = 3 ∧ s'.root = 1 ∧
      ring s'.mem s'.root [2] ∧ s'.current ∉ s'.root :: [2] ∧
      ¬ ∃ rest, ring s'.mem s'.current rest := by
  refine ⟨_, _, _, rfl, rfl, rfl, rfl, rfl, rfl, ⟨⟨rfl, rfl, trivial⟩, by decide, by decide⟩,
    by decide, rfl, rfl, rfl, ⟨⟨rfl, rfl, trivial⟩, by decide, by decide⟩, by decide, ?_⟩
  rintro ⟨rest, hl, -, hnn⟩
  cases rest with
  | nil => exact absurd hl.1 (by decide)
  | cons b r =>
    have hb : NULL = b := hl.1
    exact hnn (by rw [← hb]; exact List.mem_cons_of_mem _ (List.mem_cons_self _ _))

/-- The changes of status on a memory without stale waiters (no block holds a
waiter before it is allocated, and a block that is no descriptor counts as
Dead): in a run from initialisation, every step that changes the status of an
allocated descriptor takes it from New to Running, from Running to Waiting,
from Waiting to Running or from Running to Dead; and a descriptor that is Dead
has the status Dead in every later state of the run. -/
theorem status_changes_on_clean_memory (junk : Mem) (prog : Prog) (fuel n : Nat)
    (s0 s s' : State)
    (hjunk : ∀ a, (junk a).waiter = NULL ∧ (junk a).status = CO_DEAD)
    (h0 : init junk prog = some s0) (hrun : exec fuel n s0 = some s)
    (hstep : step fuel s = some s') :
    (∀ a, a < s.brk → (s'.mem a).status ≠ (s.mem a).status →
      ((s.mem a).status = CO_NEW ∧ (s'.mem a).status = CO_RUNNING) ∨
      ((s.mem a).status = CO_RUNNING ∧ (s'.mem a).status = CO_WAITING) ∨
      ((s.mem a).status = CO_WAITING ∧ (s'.mem a).status = CO_RUNNING) ∨
      ((s.mem a).status = CO_RUNNING ∧ (s'.mem a).status = CO_DEAD)) ∧
    (∀ a, a < s.brk → (s.mem a).status = CO_DEAD →
      ∀ m s'', exec fuel m s = some s'' → (s''.mem a).status = CO_DEAD) := by
  have hc := consistent_reachable junk prog fuel n s0 s hjunk h0 hrun
  constructor
  · intro a ha hne
    rcases legal_step fuel s s' hc hstep a ha with h1 | h1
    · exact absurd h1 hne
    · exact h1
  · intro a ha hd m s'' hm
    exact dead_exec fuel m s s'' hc hm a ha hd

/-- C12, at a failing input: `main` creates A and B, whose blocks still hold
the fields of an earlier use (`co_start` never writes `waiter`), and yields.
A runs and its entry function returns; A holds the stale waiter `3`, the block
of B, so lines 122-124 make B current and resume the context found in its
block, a point just before the return of an entry function.  The next step
marks B Dead (line 120): B goes from New to Dead, and its entry function was
never started. -/
theorem stale_waiter_skips_life_cycle :
    ∃ s0 r s s', init stale pair_main = some s0 ∧ exec 3 3 s0 = some r ∧
      step 3 r = some s ∧ step 3 s = some s' ∧
      r.current = 2 ∧ r.pc = Cont.host Prog.ret ∧ (r.mem 2).waiter = 3 ∧
      s.current = 3 ∧ 3 < s.brk ∧ (s.mem 3).status = CO_NEW ∧
      (s'.mem 3).status = CO_DEAD ∧
      s'.trace = [Event.select 2, Event.enter 2, Event.dead 2, Event.dead 3] :=
  ⟨_, _, _, _, rfl, rfl, rfl, rfl, rfl, rfl, rfl, rfl, by decide, rfl, rfl, rfl⟩

/-! ## Two waiters on one target -/

end Co
